import Mathlib

/-!
Verification of the altruct dense-polynomial arithmetic engine
(`include/altruct/structure/math/polynom.h`) and of the FFT/convolution
engine shipped with it.

Shallow-embedding conventions used throughout this file:

* Raw coefficient buffers (`T*` pointers) are total functions `ℕ → T`;
  a pointer offset `p + k` becomes the index shift `fun i => p (k + i)`.
* The `polynom<T>` container is represented by its coefficient list
  `List T`.  Every constructor of the C++ class sets
  `ZERO_COEFF = zeroOf(...)`, which is the ring zero of `T` for every
  coefficient ring considered here, so the contextual zero is embedded as
  `(0 : T)` rather than being carried as a separate field.
* C++ `int` lengths are embedded as `ℕ` at positions where the source
  guarantees nonnegativity, and as `ℤ` for the loop bounds that can be
  negative at a call site (the bounds of `_zero`, `_add_to`, `_sub_from`).
* The generic root ring `R` of the FFT routines is specialised to the
  coefficient ring `T`; the constructor cast `T(w)` becomes the identity.
-/

namespace Altruct

/-- Cauchy product (polynomial convolution) of two coefficient sequences:
`conv f g n` is the coefficient of `x^n` in `f * g`. -/
def conv {T : Type} [CommRing T] (f g : ℕ → T) (n : ℕ) : T :=
  ∑ j ∈ Finset.range (n + 1), f j * g (n - j)


/-! ## Raw buffer layer of `polynom<T>`

The static member functions `_zero`, `_add_to`, `_sub_from`, `_mul_long`,
`_mul_karatsuba`, `_mul` and the dispatcher `polynom_mul<T>::impl` operate
on raw `T*` buffers.  A buffer is embedded as a total function `ℕ → T`;
each routine returns the contents of its destination buffer
(positions it does not write keep the incoming contents; positions beyond
the written range `[0, lr]` are never read by any caller). -/

section BufferLayer

variable {T : Type} [CommRing T]

/-- `pr[lm + 1 : lr] = 0`.  The written window of the destination pointer
starts at absolute offset `off`; the bounds are `ℤ` because call sites can
pass negative bounds (an empty loop in the C++ source). -/
def bufZero (pr : ℕ → T) (lm lr : ℤ) : ℕ → T :=
  fun i => if lm < (i : ℤ) ∧ (i : ℤ) ≤ lr then 0 else pr i

/-- `pr[0 : l2] += p2[0 : l2]`, with the destination pointer at absolute
offset `off` inside the enclosing buffer (C++ pointer arithmetic `pr + off`). -/
def addTo (pr : ℕ → T) (off : ℕ) (p2 : ℕ → T) (l2 : ℤ) : ℕ → T :=
  fun i => if off ≤ i ∧ (i : ℤ) ≤ off + l2 then pr i + p2 (i - off) else pr i

/-- `pr[0 : l2] -= p2[0 : l2]`, destination pointer at absolute offset `off`. -/
def subFrom (pr : ℕ → T) (off : ℕ) (p2 : ℕ → T) (l2 : ℤ) : ℕ → T :=
  fun i => if off ≤ i ∧ (i : ℤ) ≤ off + l2 then pr i - p2 (i - off) else pr i

/-- Schoolbook multiplication `pr = p1 * p2`: for each output index `i`
(the C++ loop walks `i` from `lr` down to `0`, writing each `pr[i]` once)
the sum of `p1[j] * p2[i-j]` over `max(0, i-l2) ≤ j ≤ min(i, l1)`.
Since each output coefficient is written exactly once, the loop is embedded
as the per-index sum; positions above `lr` are never read by callers. -/
def mulLong (lr : ℕ) (p1 : ℕ → T) (l1 : ℕ) (p2 : ℕ → T) (l2 : ℕ) : ℕ → T :=
  fun i => ∑ j ∈ Finset.Icc (i - l2) (min i l1), p1 j * p2 (i - j)

mutual

/-- Karatsuba multiplication, mirroring `polynom<T>::_mul_karatsuba`.
The scratch vectors `MM`, `S1`, `S2`, `HH` become local functions; writes
into the destination through pointer offsets (`pr + k`, `pr + k + k`)
become `addTo`/`subFrom` with the corresponding offset argument.
Precondition in the source: `0 ≤ l2 ≤ l1 ≤ lr ≤ l1 + l2`. -/
def mulKaratsuba (lr : ℕ) (p1 : ℕ → T) (l1 : ℕ) (p2 : ℕ → T) (l2 : ℕ) : ℕ → T :=
  let k := l1 / 2 + 1
  if l2 = 0 then
    fun i => p1 i * p2 0
  else if l2 < k then
    let MM := mulDispatch (lr - k) (fun i => p1 (k + i)) (l1 - k) p2 l2
    let pr1 := mulDispatch (min lr (l2 + k - 1)) p1 (k - 1) p2 l2
    let pr2 := bufZero pr1 ((l2 : ℤ) + k - 1) lr
    addTo pr2 k MM ((lr : ℤ) - k)
  else
    let S1 := addTo p1 0 (fun i => p1 (k + i)) ((l1 : ℤ) - k)
    let S2 := addTo p2 0 (fun i => p2 (k + i)) ((l2 : ℤ) - k)
    let mm_l := min (lr - k) (k - 1 + (k - 1))
    let MM := mulDispatch mm_l S1 (k - 1) S2 (k - 1)
    let hh_l := min mm_l (l1 - k + (l2 - k))
    let HH := mulDispatch hh_l (fun i => p1 (k + i)) (l1 - k) (fun i => p2 (k + i)) (l2 - k)
    let pr1 := mulDispatch (k - 1 + (k - 1)) p1 (k - 1) p2 (k - 1)
    let pr2 := bufZero pr1 ((k : ℤ) - 1 + ((k : ℤ) - 1)) lr
    let MM1 := subFrom MM 0 pr2 (min mm_l (k - 1 + (k - 1)) : ℤ)
    let MM2 := subFrom MM1 0 HH (hh_l : ℤ)
    let pr3 := addTo pr2 k MM2 (mm_l : ℤ)
    addTo pr3 (k + k) HH ((lr : ℤ) - (k + k))
  termination_by 4 * (l1 + l2)
  decreasing_by
  all_goals simp_wf
  all_goals first
    | omega
    | (split_ifs <;> omega)

/-- `polynom_mul<T>::impl`: dispatch between schoolbook and Karatsuba. -/
def polynomMulImpl (lr : ℕ) (p1 : ℕ → T) (l1 : ℕ) (p2 : ℕ → T) (l2 : ℕ) : ℕ → T :=
  if l2 < 48 then
    mulLong lr p1 l1 p2 l2
  else
    mulKaratsuba lr p1 l1 p2 l2
  termination_by 4 * (l1 + l2) + 1
  decreasing_by
  all_goals simp_wf
  all_goals first
    | omega
    | (split_ifs <;> omega)

/-- `polynom<T>::_mul`: establishes `l2 ≤ l1 ≤ lr ≤ l1 + l2`, zero-fills
`pr` above `l1 + l2`, and delegates to `polynom_mul<T>::impl`. -/
def mulDispatch (lr : ℕ) (p1 : ℕ → T) (l1 : ℕ) (p2 : ℕ → T) (l2 : ℕ) : ℕ → T :=
  if l2 > l1 then
    mulDispatch lr p2 l2 p1 l1
  else
    let l1' := min l1 lr
    let l2' := min l2 lr
    let res := polynomMulImpl (min lr (l1' + l2')) p1 l1' p2 l2'
    fun i => if (l1' + l2' : ℤ) < i ∧ (i : ℤ) ≤ lr then 0 else res i
  termination_by 4 * (l1 + l2) + (if l2 > l1 then 3 else 2)
  decreasing_by
  all_goals simp_wf
  all_goals first
    | omega
    | (split_ifs <;> omega)

end

end BufferLayer

/-! ## Definitions used by the multiplication correctness proofs -/

section MulDefs

variable {T : Type} [CommRing T]

/-- Truncation of a buffer to its first `l + 1` entries (the entries a C++
array of logical length `l + 1` actually provides). -/
def cut (f : ℕ → T) (l : ℕ) : ℕ → T :=
  fun j => if j ≤ l then f j else 0

/-- Shorthand for the inductive hypothesis used while proving the
multiplication kernels correct: all strictly smaller multiplications
dispatched through `_mul` compute the truncated Cauchy product. -/
def MulIH (T : Type) [CommRing T] (N : ℕ) : Prop :=
  ∀ (lr : ℕ) (q1 : ℕ → T) (m1 : ℕ) (q2 : ℕ → T) (m2 : ℕ), m1 + m2 < N →
    ∀ i ≤ lr, mulDispatch lr q1 m1 q2 m2 i = conv (cut q1 m1) (cut q2 m2) i

end MulDefs


/-! ## The `polynom<T>` container

`polynom<T>` stores its coefficients in a `std::vector<T> c`; the class is
embedded as a structure holding the coefficient list.  Reading `at(i)`
out of range yields the contextual zero, which is `(0 : T)` (see the file
header).  C++ member functions become functions on the structure. -/

structure polynom (T : Type) where
  c : List T

namespace polynom

variable {T : Type} [CommRing T] [DecidableEq T]

/-- `size()`: number of stored coefficients. -/
def size (p : polynom T) : ℕ := p.c.length

/-- `at(index)`: stored coefficient, or the contextual zero out of range
(`List.getD` returns the default `0` exactly for `index ≥ size`). -/
def at' (p : polynom T) (i : ℕ) : T := p.c.getD i 0

/-- `std::vector::resize(sz, ZERO_COEFF)` on a coefficient list: keep the
first `sz` entries, pad with the contextual zero when growing. -/
def listResize (l : List T) (sz : ℕ) : List T :=
  l.take sz ++ List.replicate (sz - l.length) 0

/-- `resize(sz)`: `if (sz != size()) c.resize(sz, ZERO_COEFF)`. -/
def resize (p : polynom T) (sz : ℕ) : polynom T :=
  if sz ≠ p.size then ⟨listResize p.c sz⟩ else p

/-- `reserve(sz)`: `if (sz > size()) c.resize(sz, ZERO_COEFF)`. -/
def reserve (p : polynom T) (sz : ℕ) : polynom T :=
  if sz > p.size then ⟨listResize p.c sz⟩ else p

/-- The mutable `operator[](index)` used as an lvalue: grow the storage to
cover `index` (`reserve(index + 1)`), then write the coefficient. -/
def setC (p : polynom T) (i : ℕ) (v : T) : polynom T :=
  ⟨(p.reserve (i + 1)).c.set i v⟩

/-- Scan of `deg()`: `for (int i = size()-1; i > 0; i--) if (!(c[i] == ZERO_COEFF)) return i; return 0;` -/
def degLoop (c : List T) : ℕ → ℕ
  | 0 => 0
  | i + 1 => if c.getD (i + 1) 0 ≠ 0 then i + 1 else degLoop c i

/-- `deg()`: highest stored index with a non-zero coefficient (0 for the
zero polynomial, by the source's convention). -/
def deg (p : polynom T) : ℕ := degLoop p.c (p.size - 1)

/-- Scan of `lowest()` upwards from index 0. -/
def lowLoop (c : List T) (i : ℕ) : ℕ :=
  if h : i < c.length then
    (if c.getD i 0 ≠ 0 then i else lowLoop c (i + 1))
  else 0
  termination_by c.length - i

/-- `lowest()`: lowest index with a non-zero coefficient, 0 if none. -/
def lowest (p : polynom T) : ℕ := lowLoop p.c 0

/-- `leading_coeff()`. -/
def leading_coeff (p : polynom T) : T := p.at' p.deg

/-- `id_coeff()`: the multiplicative identity of the coefficient context
(`identityOf(ZERO_COEFF)` is the ring one here). -/
def id_coeff (_p : polynom T) : T := 1

/-- `is_power()`: `lowest() == deg() && leading_coeff() == id_coeff()`. -/
def isPow (p : polynom T) : Prop :=
  p.lowest = p.deg ∧ p.leading_coeff = p.id_coeff

instance (p : polynom T) : Decidable p.isPow := by
  unfold isPow
  infer_instance

/-- `shrink_to_fit()`: `c.resize(deg() + 1, ZERO_COEFF)`. -/
def shrink_to_fit (p : polynom T) : polynom T :=
  ⟨listResize p.c (p.deg + 1)⟩

/-- `add(pr, p1, p2)`: `pr` is resized to `max(deg, deg) + 1` terms and
every slot `[0, lr]` is rewritten, so the result list is exactly the map
below (the ascending loop reads slot `i` before writing it, which keeps
this contract when `pr` aliases an input). -/
def add (p1 p2 : polynom T) : polynom T :=
  ⟨(List.range (max p1.deg p2.deg + 1)).map (fun i => p1.at' i + p2.at' i)⟩

/-- `sub(pr, p1, p2)`. -/
def sub (p1 p2 : polynom T) : polynom T :=
  ⟨(List.range (max p1.deg p2.deg + 1)).map (fun i => p1.at' i - p2.at' i)⟩

/-- `mul(pr, p1, p2, lr)`: normalise the requested degree (`lr = -1`
means `l1 + l2`), resize the output to `lr + 1` slots, and fill every slot
from `_mul` (or with zeros when an operand stores no coefficients).  All
`lr + 1` slots are written, so the result list is exactly the map. -/
def mul (p1 p2 : polynom T) (lrArg : ℤ) : polynom T :=
  let l1 := p1.deg
  let l2 := p2.deg
  let lr : ℕ := (if lrArg < 0 then ((l1 + l2 : ℕ) : ℤ) else lrArg).toNat
  if p1.size = 0 ∨ p2.size = 0 then
    ⟨List.replicate (lr + 1) 0⟩
  else
    ⟨(List.range (lr + 1)).map (fun i => mulDispatch lr p1.at' l1 p2.at' l2 i)⟩

/-- `mul(pr, p1, s)`: multiply by a scalar. -/
def mulScalar (p1 : polynom T) (s : T) : polynom T :=
  ⟨(List.range (p1.deg + 1)).map (fun i => p1.at' i * s)⟩

/-- `reverse()`: reverse the first `deg() + 1` stored coefficients. -/
def reverse (p : polynom T) : polynom T :=
  if 0 < p.c.length then
    ⟨(p.c.take (p.deg + 1)).reverse ++ p.c.drop (p.deg + 1)⟩
  else p

/-- `cmp(p1, p2)`: walk the coefficients downwards from the larger degree,
report the sign of the first difference.  `cmpFrom` is the loop body from
index `i` down to `0`. -/
def cmpFrom [LinearOrder T] (p1 p2 : polynom T) : ℕ → ℤ
  | 0 =>
    if p1.at' 0 < p2.at' 0 then -1
    else if p2.at' 0 < p1.at' 0 then 1
    else 0
  | i + 1 =>
    if p1.at' (i + 1) < p2.at' (i + 1) then -1
    else if p2.at' (i + 1) < p1.at' (i + 1) then 1
    else cmpFrom p1 p2 i

def cmp [LinearOrder T] (p1 p2 : polynom T) : ℤ :=
  cmpFrom p1 p2 (max p1.deg p2.deg)

end polynom

namespace polynom

section FieldOps

variable {T : Type} [Field T] [DecidableEq T]

/-- `div(pr, p1, s)`: divide every coefficient up to the degree by `s`. -/
def divScalar (p1 : polynom T) (s : T) : polynom T :=
  ⟨(List.range (p1.deg + 1)).map (fun i => p1.at' i / s)⟩

/-- The write-back loop of `inverse`:
`for (int i = m; i >= k; i--) r[i] = -t[i - k];`
`n` counts the remaining iterations; the loop writes index `k + n - 1`
first, i.e. it starts at `i = m` for `n = m + 1 - k`. -/
def invWriteLoop (t3 : polynom T) (k : ℕ) (r : polynom T) : ℕ → polynom T
  | 0 => r
  | n + 1 => invWriteLoop t3 k (r.setC (k + n) (-(t3.at' n))) n

/-- One pass of the Newton doubling loop of `inverse`; the working
precision `l` doubles each iteration starting from 1, so `l = 2 ^ j`. -/
def inverse_loop (p : polynom T) (L : ℕ) (r : polynom T) (j : ℕ) : polynom T :=
  let l := 2 ^ j
  if l < L * 2 then
    let m := min (L - 1) l
    let k := l / 2 + 1
    let t0 : polynom T := ⟨p.c.take (min (m + 1) p.c.length)⟩
    let t1 := mul t0 r ((l : ℤ) + 1)
    let t2 : polynom T := ⟨t1.c.drop k⟩
    let t3 := mul t2 r ((l : ℤ) - k)
    inverse_loop p L (invWriteLoop t3 k r (m + 1 - k)) (j + 1)
  else r
  termination_by L * 2 - 2 ^ j
  decreasing_by
  have h1 : 1 ≤ 2 ^ j := Nat.one_le_two_pow
  have h2 : 2 ^ (j + 1) = 2 ^ j + 2 ^ j := by
    rw [pow_succ]
    omega
  omega

/-- The Newton loop of `inverse` for a series with constant term 1. -/
def inverse_core (p : polynom T) (L : ℕ) : polynom T :=
  inverse_loop p L ⟨[1]⟩ 0

/-- `inverse(L)`: `r(x)` with `p(x) * r(x) == 1 + O(x^L)`.
A zero constant term yields the zero polynomial `{ZERO_COEFF}`.
A constant term other than 1 is normalised first:
`return (*this / c0).inverse(L) / c0;` — in a field the recursive call's
constant term is `c0 / c0 = 1`, so that single level of recursion is
unfolded into a call of the Newton loop `inverse_core`. -/
def inverse (p : polynom T) (L : ℕ) : polynom T :=
  if p.at' 0 = 0 then ⟨[0]⟩
  else if p.at' 0 ≠ 1 then
    divScalar (inverse_core (divScalar p (p.at' 0)) L) (p.at' 0)
  else inverse_core p L

/-- Inner elimination loop of `quot_rem_long`:
`for (int j = 1; j <= l2; j++) pr[i - j] = pr[i - j] - s * p2[l2 - j];` -/
def qrSubLoop (p2 : polynom T) (l2 : ℕ) (s : T) (i : ℕ) (pr : polynom T)
    (j : ℕ) : polynom T :=
  if h : j ≤ l2 then
    qrSubLoop p2 l2 s i (pr.setC (i - j) (pr.at' (i - j) - s * p2.at' (l2 - j)))
      (j + 1)
  else pr
  termination_by l2 + 1 - j

/-- Body of the outer loop of `quot_rem_long` at index `i`:
`T s = pr[i] /= p2[l2]; if (s == ZERO) continue; <inner loop>`. -/
def qrBody (p2 : polynom T) (l2 : ℕ) (pr : polynom T) (i : ℕ) : polynom T :=
  let s := pr.at' i / p2.at' l2
  let pr' := pr.setC i s
  if s = 0 then pr' else qrSubLoop p2 l2 s i pr' 1

/-- Outer loop of `quot_rem_long`, walking `i` from `l2 + n` down to `l2`. -/
def qrLoop (p2 : polynom T) (l2 : ℕ) (pr : polynom T) : ℕ → polynom T
  | 0 => qrBody p2 l2 pr l2
  | n + 1 => qrLoop p2 l2 (qrBody p2 l2 pr (l2 + (n + 1))) n

/-- `quot_rem_long(pr, p1, p2)`: classic long division; afterwards the
buffer holds the remainder in slots `[0, l2)` and the quotient in slots
`[l2, l1]`.  Returns `pr = p1` unchanged when `deg p1 < deg p2` or when
`p2` is a power `x^l2`. -/
def quot_rem_long (p1 p2 : polynom T) : polynom T :=
  let l1 := p1.deg
  let l2 := p2.deg
  if (l1 : ℤ) - l2 < 0 ∨ p2.isPow then p1
  else qrLoop p2 l2 p1 (l1 - l2)

/-- `quot_rem_hensel(pr, p1, p2)`: division via reversal and Newton
inversion.  `std::reverse(q.c.begin(), q.c.begin() + lq + 1)` reverses the
whole coefficient list of `q` (its size is exactly `lq + 1`);
`q.c.insert(q.c.begin(), l2, ZERO)` prepends `l2` zeros. -/
def quot_rem_hensel (p1 p2 : polynom T) : polynom T :=
  let l1 := p1.deg
  let l2 := p2.deg
  if (l1 : ℤ) - l2 < 0 ∨ p2.isPow then p1
  else
    let q0 := mul (inverse p2.reverse (l1 - l2 + 1)) p1.reverse ((l1 : ℤ) - l2)
    let q1 : polynom T :=
      ⟨(q0.c.take (l1 - l2 + 1)).reverse ++ q0.c.drop (l1 - l2 + 1)⟩
    let pr1 := sub p1 (mul q1 p2 (-1))
    let q2 : polynom T := ⟨List.replicate l2 (0 : T) ++ q1.c⟩
    add pr1 q2

/-- `quot_rem(pr, p1, p2)`: dispatch between long and Hensel division.
The C++ heuristic compares `l2` with `25 * log2(l1)` in floating point;
`Nat.log2` is its integer floor.  Both branches are proven to produce the
same buffer contents, so none of the theorems below depend on how the
tie is broken.  The `std::is_floating_point<T>` override of
`is_invertible` is vacuous for the exact rings considered here. -/
def quot_rem (p1 p2 : polynom T) : polynom T :=
  let l1 := p1.deg
  let l2 := p2.deg
  if l1 < 100 ∨ l2 < 50 ∨ l2 < 25 * Nat.log2 l1 ∨
      ¬ ((p1.id_coeff / p2.at' l2) * p2.at' l2 = p1.id_coeff) then
    quot_rem_long p1 p2
  else quot_rem_hensel p1 p2

/-- `div(pr, p1, p2)`: empty quotient when `deg p1 < deg p2`; otherwise
run `quot_rem` and shift the quotient slots down by `l2`
(`for (int i = 0; i <= lr; i++) pr[i] = pr[i + l2];` — the ascending copy
reads positions at or above the write position, so every read sees the
original buffer — followed by `resize(lr + 1)`, which leaves exactly the
`lr + 1` copied coefficients). -/
def div (p1 p2 : polynom T) : polynom T :=
  let l1 := p1.deg
  let l2 := p2.deg
  if (l1 : ℤ) - l2 < 0 then ⟨[]⟩
  else
    let pr := quot_rem p1 p2
    ⟨(List.range (l1 - l2 + 1)).map (fun i => pr.at' (i + l2))⟩

/-- `mod(pr, p1, p2)`: run `quot_rem` and truncate to the remainder slots
(`lr + 1 = l2` coefficients) when `lr = l2 - 1 < l1`. -/
def mod (p1 p2 : polynom T) : polynom T :=
  let l1 := p1.deg
  let l2 := p2.deg
  let pr := quot_rem p1 p2
  if (l2 : ℤ) - 1 < (l1 : ℤ) then pr.resize l2 else pr

end FieldOps

end polynom

/-! ## FFT (src/unnamed/part_003)

Shallow embedding of the iterative in-place `fft`, the recursive
out-of-place `fft_rec`, and the inverse-transform step of
`fft_cyclic_convolution`.  Buffers are total functions `ℕ → T`; the C++
template parameter `R` of the root type is instantiated at `R = T`, so the
conversion `T(w)` is the identity.  All the C++ `int` counters are
non-negative at every call site and are embedded as `ℕ`. -/

section FFTDefs

variable {T : Type} [CommRing T]

/-- Innermost butterfly loop of `fft`:
`for (T* dataH = data0 + h; data0 != dataH; data0++) { T* data1 = data0 + h;
T t = *data0 - *data1; *data0 += *data1; *data1 = t * T(w); w *= root; }`.
It walks the pairs `(i0, i0 + h)` for `h` steps starting at `i0 = base`;
the twiddle `w` starts at the identity and is multiplied by `root` each
step.  `n` is the number of remaining iterations. -/
def fftInner (h : ℕ) (root : T) : ℕ → ℕ → (ℕ → T) → T → (ℕ → T)
  | _, 0, data, _ => data
  | i0, n + 1, data, w =>
      let t := data i0 - data (i0 + h)
      let data1 : ℕ → T := fun x =>
        if x = i0 then data i0 + data (i0 + h)
        else if x = i0 + h then t * w else data x
      fftInner h root (i0 + 1) n data1 (w * root)

/-- Middle loop of `fft`:
`for (T* data0 = data; data0 != data + size; data0 += h)`.  The inner loop
advances `data0` by `h` and the loop header by another `h`, so blocks start
at `0, m, 2m, ...` (with `m = 2h`); the exit test `data0 != data + size`
is the `base = size` comparison.  `fuel` bounds the number of iterations:
under the power-of-two guard `m` divides `size`, the exit is reached after
`size / m ≤ size` steps, and the fuel `size + 1` is never exhausted. -/
def fftBlocks (h m size : ℕ) (root : T) : ℕ → ℕ → (ℕ → T) → (ℕ → T)
  | 0, _, data => data
  | fuel + 1, base, data =>
      if base = size then data
      else fftBlocks h m size root fuel (base + m) (fftInner h root base h data 1)

/-- Outer loop of `fft`: `for (int m = size; m > 1; m /= 2) { ... root *= root; }`. -/
def fftPasses (size : ℕ) (m : ℕ) (root : T) (data : ℕ → T) : ℕ → T :=
  if 1 < m then
    fftPasses size (m / 2) (root * root)
      (fftBlocks (m / 2) m size root (size + 1) 0 data)
  else data
termination_by m
decreasing_by simp_wf; omega

/-- Bit-reversal inner loop of `fft`:
`for (int k = size / 2; (i ^= k) < k; k /= 2);` — each test XORs `i` with
`k` first; the loop continues (halving `k`) while the new `i` is below `k`,
and the final `i` is the result. -/
def bitrevInner (i k : ℕ) : ℕ :=
  let i1 := i ^^^ k
  if i1 < k then bitrevInner i1 (k / 2) else i1
termination_by k
decreasing_by simp_wf; omega

/-- Reorder loop of `fft`:
`for (int i = 0, j = 1; j < size - 1; j++) { for (...k loop...); if (j < i)
std::swap(data[i], data[j]); }`.  `j` runs over `1 .. size - 2` (with the
C++ `int` bound `j < size - 1`; for `size = 0` the signed bound is `-1`
and the loop runs zero times, matching `size - 2 = 0` iterations here),
`i` is threaded across iterations, and `n` counts the remaining
iterations, so `j = size - 1 - n` at each step. -/
def fftReorderLoop (size : ℕ) : ℕ → ℕ × (ℕ → T) → ℕ × (ℕ → T)
  | 0, st => st
  | n + 1, st =>
      let j := size - 1 - (n + 1)
      let i := bitrevInner st.1 (size / 2)
      let data := st.2
      let data1 : ℕ → T :=
        if j < i then
          fun x => if x = i then data j else if x = j then data i else data x
        else data
      fftReorderLoop size n (i, data1)

/-- Runs the reorder loop of `fft` from `i = 0, j = 1` for its
`size - 2` iterations and returns the final buffer. -/
def fftReorder (size : ℕ) (data : ℕ → T) : ℕ → T :=
  (fftReorderLoop size (size - 2) (0, data)).2

/-- `fft(data, size, root)`, lines 18–40 of the FFT file: the guard
`if ((size & (size - 1)) != 0) return;` leaves the buffer untouched, else
the butterfly passes run followed by the bit-reversal reorder.  For
`size = 0` the C++ guard computes `0 & -1 = 0` and falls through; here
`0 &&& (0 - 1) = 0 &&& 0 = 0` falls through the same way, and every loop
then runs zero iterations. -/
def fft (data : ℕ → T) (size : ℕ) (root : T) : ℕ → T :=
  if size &&& (size - 1) ≠ 0 then data
  else fftReorder size (fftPasses size size root data)

/-- `fft_rec(dest, src, size, root, off)`, lines 53–65 of the FFT file:
returns the contents of `dest[0 .. size)` as a function (positions at or
beyond `size` are never written and are modeled as `0`).  The call reads
`src` at stride `off`: the first recursive call keeps the base and doubles
the stride (even samples), the second shifts the base by `off` (odd
samples) and writes `dest + h`.  The combine loop is
`z = dest[i+h] * rooti; dest[i+h] = dest[i] - z; dest[i] += z;` with
`rooti = root^i`. -/
def fftRec (src : ℕ → T) (size : ℕ) (root : T) (off : ℕ) : ℕ → T :=
  if size ≤ 1 then fun i => if i = 0 then src 0 else 0
  else
    let h := size / 2
    let lo := fftRec src h (root * root) (off * 2)
    let hi := fftRec (fun t => src (off + t)) h (root * root) (off * 2)
    fun i =>
      if i < h then lo i + hi i * root ^ i
      else if i < size then lo (i - h) - hi (i - h) * root ^ (i - h)
      else 0
termination_by size
decreasing_by all_goals (simp_wf; omega)

/-- Reference discrete Fourier transform of the strided sequence
`src[0], src[off], src[2*off], ...`:
`dft src n w off i = ∑ j < n, src[off*j] * w^(i*j)`.  This is the
specification the `fft` documentation states (a transform by a principal
root of unity); `fftRec` is proven to compute it. -/
def dft (src : ℕ → T) (n : ℕ) (w : T) (off : ℕ) : ℕ → T :=
  fun i => ∑ j ∈ Finset.range n, src (off * j) * w ^ (i * j)

end FFTDefs

section FFTFieldDefs

variable {T : Type} [Field T]

/-- Inverse-transform step of `fft_cyclic_convolution` (lines 99–103 of
the FFT file): transform with the reciprocal root
`iroot = powT(root, size - 1)` and multiply every element by
`isize = T(e1) / T(size)`. -/
def fftInverse (data : ℕ → T) (size : ℕ) (root : T) : ℕ → T :=
  fun i => fftRec data size (root ^ (size - 1)) 1 i * (1 / (size : T))

end FFTFieldDefs

instance fact_prime_17 : Fact (Nat.Prime 17) := ⟨by norm_num⟩

/-! ## Imperative aliasing model of the multiplication kernels

The comments on `mul`, `_mul`, `_mul_long` and `_mul_karatsuba` state that
the destination pointer `pr` may be the same instance as `p1` and/or `p2`.
To verify this, the kernels are re-embedded *imperatively*: the destination
is a live buffer threaded through every operation, and each input operand
is an `MView` — either `self` (the operand pointer aliases the
destination, so reads observe the buffer's current contents) or `pure f`
(an unrelated constant sequence).  The descending write loops of
`_mul_long` and of the `l2 == 0` Karatsuba branch become `descExec`,
which writes indices from high to low and evaluates each new value
against the buffer as it stands at that iteration. -/

section AliasDefs

variable {T : Type} [CommRing T]

/-- An operand pointer of a multiplication kernel: `self` if it is the
same instance as the destination buffer, `pure f` otherwise. -/
inductive MView (T : Type) where
  | self : MView T
  | pure : (ℕ → T) → MView T

/-- Read an operand through its view of the current destination buffer. -/
def MView.read : MView T → (ℕ → T) → ℕ → T
  | MView.self, buf, i => buf i
  | MView.pure f, _, i => f i

/-- A descending write loop `for (i = n - 1; i >= 0; i--) buf[i] = F buf i`:
each value is computed from the *current* buffer contents (positions above
`i` already overwritten, positions `≤ i` still original), then stored. -/
def descExec (F : (ℕ → T) → ℕ → T) : ℕ → (ℕ → T) → (ℕ → T)
  | 0, buf => buf
  | n + 1, buf => descExec F n (fun x => if x = n then F buf n else buf x)

mutual

/-- `_mul_karatsuba` acting on a live destination buffer.  The scratch
vectors `MM`, `S1`, `S2`, `HH` are built from snapshots of the buffer
taken before any write to the destination occurs (matching the order of
operations in the source); the writes through `pr` thread the buffer. -/
def karatsubaExec (v1 v2 : MView T) (lr l1 l2 : ℕ) (buf : ℕ → T) : ℕ → T :=
  let k := l1 / 2 + 1
  if l2 = 0 then
    descExec (fun b i => v1.read b i * v2.read b 0) (lr + 1) buf
  else if l2 < k then
    let MM := mulExecV (MView.pure (fun i => v1.read buf (k + i)))
      (MView.pure (fun i => v2.read buf i)) (lr - k) (l1 - k) l2 (fun _ => 0)
    let buf1 := mulExecV v1 v2 (min lr (l2 + k - 1)) (k - 1) l2 buf
    let buf2 := bufZero buf1 ((l2 : ℤ) + k - 1) lr
    addTo buf2 k MM ((lr : ℤ) - k)
  else
    let S1 := addTo (fun i => v1.read buf i) 0 (fun i => v1.read buf (k + i)) ((l1 : ℤ) - k)
    let S2 := addTo (fun i => v2.read buf i) 0 (fun i => v2.read buf (k + i)) ((l2 : ℤ) - k)
    let mm_l := min (lr - k) (k - 1 + (k - 1))
    let MM := mulExecV (MView.pure S1) (MView.pure S2) mm_l (k - 1) (k - 1) (fun _ => 0)
    let hh_l := min mm_l (l1 - k + (l2 - k))
    let HH := mulExecV (MView.pure (fun i => v1.read buf (k + i)))
      (MView.pure (fun i => v2.read buf (k + i))) hh_l (l1 - k) (l2 - k) (fun _ => 0)
    let buf1 := mulExecV v1 v2 (k - 1 + (k - 1)) (k - 1) (k - 1) buf
    let buf2 := bufZero buf1 ((k : ℤ) - 1 + ((k : ℤ) - 1)) lr
    let MM1 := subFrom MM 0 buf2 (min mm_l (k - 1 + (k - 1)) : ℤ)
    let MM2 := subFrom MM1 0 HH (hh_l : ℤ)
    let buf3 := addTo buf2 k MM2 (mm_l : ℤ)
    addTo buf3 (k + k) HH ((lr : ℤ) - (k + k))
  termination_by 4 * (l1 + l2)
  decreasing_by
  all_goals simp_wf
  all_goals first
    | omega
    | (split_ifs <;> omega)

/-- `polynom_mul<T>::impl` on a live destination buffer: the schoolbook
kernel is the descending write loop of `_mul_long` with aliased reads. -/
def implExec (v1 v2 : MView T) (lr l1 l2 : ℕ) (buf : ℕ → T) : ℕ → T :=
  if l2 < 48 then
    descExec (fun b i => ∑ j ∈ Finset.Icc (i - l2) (min i l1),
      v1.read b j * v2.read b (i - j)) (lr + 1) buf
  else
    karatsubaExec v1 v2 lr l1 l2 buf
  termination_by 4 * (l1 + l2) + 1
  decreasing_by
  all_goals simp_wf
  all_goals first
    | omega
    | (split_ifs <;> omega)

/-- `polynom<T>::_mul` on a live destination buffer: swap to ensure
`l2 ≤ l1`, clamp the lengths to `lr`, zero-fill above `l1 + l2`, then
delegate to `polynom_mul<T>::impl` with `lr` clamped to `l1 + l2`. -/
def mulExecV (v1 v2 : MView T) (lr l1 l2 : ℕ) (buf : ℕ → T) : ℕ → T :=
  if l2 > l1 then
    mulExecV v2 v1 lr l2 l1 buf
  else
    implExec v1 v2 (min lr (min l1 lr + min l2 lr)) (min l1 lr) (min l2 lr)
      (bufZero buf ((min l1 lr + min l2 lr : ℕ) : ℤ) (lr : ℤ))
  termination_by 4 * (l1 + l2) + (if l2 > l1 then 3 else 2)
  decreasing_by
  all_goals simp_wf
  all_goals first
    | omega
    | (split_ifs <;> omega)

end

/-- The inductive hypothesis of the aliasing proof: every strictly smaller
call of `_mul` on a live buffer writes the truncated Cauchy product of
what its operand views read *before the call* into `[0, lr]` and leaves
the rest of the buffer untouched. -/
def AliasIH (T : Type) [CommRing T] (N : ℕ) : Prop :=
  ∀ (v1 v2 : MView T) (lr l1 l2 : ℕ) (buf : ℕ → T), l1 + l2 < N →
    ∀ x, mulExecV v1 v2 lr l1 l2 buf x =
      if x ≤ lr then
        conv (cut (fun i => v1.read buf i) l1) (cut (fun i => v2.read buf i) l2) x
      else buf x

end AliasDefs

/-! ### `mul` with an aliased output polynomial

`mul(pr, p1, p2, lr)` resizes `pr` first and tests `p1.size() == 0 ||
p2.size() == 0` *afterwards*.  When `pr` is the same object as an input,
that input's coefficient vector is the resized one: its size is `lr + 1`
(never zero, so the corresponding zero-test disappears) and the raw
buffer passed to `_mul` holds the resized coefficients, while the degrees
`l1`, `l2` were computed before the resize. -/

namespace polynom

section AliasPolyDefs

variable {T : Type} [CommRing T] [DecidableEq T]

/-- `mul(p1, p1, p2, lr)`: the output is the same object as the first
input.  After `pr.resize(lr + 1)`, `p1.size()` is `lr + 1 ≠ 0`. -/
def mulSame1 (p1 p2 : polynom T) (lrArg : ℤ) : polynom T :=
  let l1 := p1.deg
  let l2 := p2.deg
  let lr : ℕ := (if lrArg < 0 then ((l1 + l2 : ℕ) : ℤ) else lrArg).toNat
  let b0 := (p1.resize (lr + 1)).at'
  if p2.size = 0 then
    ⟨List.replicate (lr + 1) 0⟩
  else
    ⟨(List.range (lr + 1)).map
      (fun i => mulExecV MView.self (MView.pure p2.at') lr l1 l2 b0 i)⟩

/-- `mul(p2, p1, p2, lr)`: the output is the same object as the second
input. -/
def mulSame2 (p1 p2 : polynom T) (lrArg : ℤ) : polynom T :=
  let l1 := p1.deg
  let l2 := p2.deg
  let lr : ℕ := (if lrArg < 0 then ((l1 + l2 : ℕ) : ℤ) else lrArg).toNat
  let b0 := (p2.resize (lr + 1)).at'
  if p1.size = 0 then
    ⟨List.replicate (lr + 1) 0⟩
  else
    ⟨(List.range (lr + 1)).map
      (fun i => mulExecV (MView.pure p1.at') MView.self lr l1 l2 b0 i)⟩

/-- `mul(p, p, p, lr)`: the output is the same object as both inputs.
After the resize neither size test can fire. -/
def mulSameBoth (p : polynom T) (lrArg : ℤ) : polynom T :=
  let l1 := p.deg
  let l2 := p.deg
  let lr : ℕ := (if lrArg < 0 then ((l1 + l2 : ℕ) : ℤ) else lrArg).toNat
  let b0 := (p.resize (lr + 1)).at'
  ⟨(List.range (lr + 1)).map
    (fun i => mulExecV MView.self MView.self lr l1 l2 b0 i)⟩

end AliasPolyDefs

end polynom

/-! # Theorems -/

section ConvLemmas

variable {T : Type} [CommRing T]

theorem conv_congr {f f' g g' : ℕ → T} {n : ℕ}
    (hf : ∀ j ≤ n, f j = f' j) (hg : ∀ j ≤ n, g j = g' j) :
    conv f g n = conv f' g' n := by
  unfold conv
  apply Finset.sum_congr rfl
  intro j hj
  have hj' : j ≤ n := Nat.lt_succ_iff.mp (Finset.mem_range.mp hj)
  rw [hf j hj', hg (n - j) (Nat.sub_le n j)]

theorem conv_comm (f g : ℕ → T) (n : ℕ) : conv f g n = conv g f n := by
  unfold conv
  rw [← Finset.sum_range_reflect]
  apply Finset.sum_congr rfl
  intro j hj
  have hj' : j ≤ n := Nat.lt_succ_iff.mp (Finset.mem_range.mp hj)
  have h1 : n + 1 - 1 - j = n - j := by omega
  have h2 : n - (n - j) = j := by omega
  rw [h1, h2, mul_comm]

theorem conv_eq_coeff_mul (f g : ℕ → T) (n : ℕ) :
    conv f g n =
      PowerSeries.coeff T n (PowerSeries.mk f * PowerSeries.mk g) := by
  rw [PowerSeries.coeff_mul, Finset.Nat.sum_antidiagonal_eq_sum_range_succ_mk]
  unfold conv
  apply Finset.sum_congr rfl
  intro j _
  rw [PowerSeries.coeff_mk, PowerSeries.coeff_mk]

theorem mk_conv (f g : ℕ → T) :
    PowerSeries.mk (conv f g) = PowerSeries.mk f * PowerSeries.mk g := by
  ext n
  rw [PowerSeries.coeff_mk, conv_eq_coeff_mul]

theorem conv_assoc (f g h : ℕ → T) (n : ℕ) :
    conv (conv f g) h n = conv f (conv g h) n := by
  rw [conv_eq_coeff_mul, conv_eq_coeff_mul, mk_conv, mk_conv, mul_assoc]

theorem conv_add_left (f₁ f₂ g : ℕ → T) (n : ℕ) :
    conv (fun j => f₁ j + f₂ j) g n = conv f₁ g n + conv f₂ g n := by
  unfold conv
  rw [← Finset.sum_add_distrib]
  apply Finset.sum_congr rfl
  intro j _
  rw [add_mul]

theorem conv_add_right (f g₁ g₂ : ℕ → T) (n : ℕ) :
    conv f (fun j => g₁ j + g₂ j) n = conv f g₁ n + conv f g₂ n := by
  unfold conv
  rw [← Finset.sum_add_distrib]
  apply Finset.sum_congr rfl
  intro j _
  rw [mul_add]

theorem conv_sub_left (f₁ f₂ g : ℕ → T) (n : ℕ) :
    conv (fun j => f₁ j - f₂ j) g n = conv f₁ g n - conv f₂ g n := by
  unfold conv
  rw [← Finset.sum_sub_distrib]
  apply Finset.sum_congr rfl
  intro j _
  rw [sub_mul]

theorem conv_smul_left (c : T) (f g : ℕ → T) (n : ℕ) :
    conv (fun j => f j * c) g n = conv f g n * c := by
  unfold conv
  rw [Finset.sum_mul]
  apply Finset.sum_congr rfl
  intro j _
  ring

/-- A convolution coefficient above the sum of the supports vanishes. -/
theorem conv_eq_zero_of_support {f g : ℕ → T} {a b n : ℕ}
    (hf : ∀ j, a < j → f j = 0) (hg : ∀ j, b < j → g j = 0)
    (hn : a + b < n) : conv f g n = 0 := by
  unfold conv
  apply Finset.sum_eq_zero
  intro j hj
  have hj' : j ≤ n := Nat.lt_succ_iff.mp (Finset.mem_range.mp hj)
  by_cases hja : a < j
  · rw [hf j hja, zero_mul]
  · have : b < n - j := by omega
    rw [hg (n - j) this, mul_zero]

/-- Convolving with a sequence shifted up by `k` positions. -/
theorem conv_shift_left (f g : ℕ → T) (k n : ℕ) :
    conv (fun j => if k ≤ j then f (j - k) else 0) g n =
      if k ≤ n then conv f g (n - k) else 0 := by
  by_cases hk : k ≤ n
  · rw [if_pos hk]
    unfold conv
    conv_lhs =>
      rw [Finset.range_eq_Ico,
          ← Finset.sum_Ico_consecutive _ (Nat.zero_le k) (by omega : k ≤ n + 1)]
    have h0 : ∑ j ∈ Finset.Ico 0 k,
        (fun j => if k ≤ j then f (j - k) else 0) j * g (n - j) = 0 := by
      apply Finset.sum_eq_zero
      intro j hj
      have hjk : ¬ k ≤ j := by
        have := (Finset.mem_Ico.mp hj).2
        omega
      show (if k ≤ j then f (j - k) else 0) * g (n - j) = 0
      rw [if_neg hjk, zero_mul]
    rw [h0, zero_add, Finset.sum_Ico_eq_sum_range]
    have hlen : n + 1 - k = n - k + 1 := by omega
    rw [hlen]
    apply Finset.sum_congr rfl
    intro i _
    show (if k ≤ k + i then f (k + i - k) else 0) * g (n - (k + i)) = f i * g (n - k - i)
    rw [if_pos (Nat.le_add_right k i)]
    have h2 : k + i - k = i := by omega
    have h3 : n - (k + i) = n - k - i := by omega
    rw [h2, h3]
  · rw [if_neg hk]
    apply Finset.sum_eq_zero
    intro j hj
    have hj' : j ≤ n := Nat.lt_succ_iff.mp (Finset.mem_range.mp hj)
    have hjk : ¬ k ≤ j := by omega
    show (if k ≤ j then f (j - k) else 0) * g (n - j) = 0
    rw [if_neg hjk, zero_mul]

/-- The Kronecker delta at 0 is a left identity for convolution. -/
theorem conv_delta_left (g : ℕ → T) (n : ℕ) :
    conv (fun j => if j = 0 then 1 else 0) g n = g n := by
  unfold conv
  rw [Finset.sum_eq_single 0]
  · show (if (0:ℕ) = 0 then (1:T) else 0) * g (n - 0) = g n
    rw [if_pos rfl, one_mul, Nat.sub_zero]
  · intro j _ hj
    show (if j = 0 then (1:T) else 0) * g (n - j) = 0
    rw [if_neg hj, zero_mul]
  · intro h
    exact absurd (Finset.mem_range.mpr (Nat.succ_pos n)) h

end ConvLemmas

/-! ## Correctness of the multiplication kernels -/

section MulCorrect

variable {T : Type} [CommRing T]


theorem cut_of_le (f : ℕ → T) {l j : ℕ} (h : j ≤ l) : cut f l j = f j :=
  if_pos h

theorem cut_of_gt (f : ℕ → T) {l j : ℕ} (h : l < j) : cut f l j = 0 :=
  if_neg (by omega)

/-- Convolution of truncated buffers vanishes above the length sum. -/
theorem conv_cut_zero (f g : ℕ → T) {a b n : ℕ} (h : a + b < n) :
    conv (cut f a) (cut g b) n = 0 :=
  conv_eq_zero_of_support (fun _ hj => cut_of_gt f hj) (fun _ hj => cut_of_gt g hj) h

/-- Below `lr`, clamping the lengths to `lr` does not change the product. -/
theorem conv_cut_clamp (f g : ℕ → T) {a b lr : ℕ} {i : ℕ} (hi : i ≤ lr) :
    conv (cut f (min a lr)) (cut g (min b lr)) i = conv (cut f a) (cut g b) i := by
  apply conv_congr
  · intro j hj
    by_cases hja : j ≤ a
    · rw [cut_of_le f (by omega), cut_of_le f hja]
    · rw [cut_of_gt f (by omega), cut_of_gt f (by omega)]
  · intro j hj
    by_cases hjb : j ≤ b
    · rw [cut_of_le g (by omega), cut_of_le g hjb]
    · rw [cut_of_gt g (by omega), cut_of_gt g (by omega)]

/-- Splitting a truncated buffer at position `k` into a low and a high part. -/
theorem cut_split (f : ℕ → T) {k l : ℕ} (hk1 : 1 ≤ k) (hk : k ≤ l) (j : ℕ) :
    cut f l j =
      cut f (k - 1) j +
        (if k ≤ j then cut (fun i => f (k + i)) (l - k) (j - k) else 0) := by
  by_cases hjk : k ≤ j
  · rw [if_pos hjk]
    by_cases hjl : j ≤ l
    · rw [cut_of_le f hjl, cut_of_gt f (by omega), cut_of_le _ (by omega), zero_add]
      congr 1
      omega
    · rw [cut_of_gt f (by omega), cut_of_gt f (by omega), cut_of_gt _ (by omega), add_zero]
  · rw [if_neg hjk, add_zero, cut_of_le f (by omega), cut_of_le f (by omega)]

theorem conv_shift_right (f g : ℕ → T) (k n : ℕ) :
    conv f (fun j => if k ≤ j then g (j - k) else 0) n =
      if k ≤ n then conv f g (n - k) else 0 := by
  rw [conv_comm, conv_shift_left]
  by_cases hk : k ≤ n
  · rw [if_pos hk, if_pos hk, conv_comm]
  · rw [if_neg hk, if_neg hk]

/-- The schoolbook kernel computes the truncated Cauchy product. -/
theorem mulLong_eq_conv (lr : ℕ) (p1 : ℕ → T) (l1 : ℕ) (p2 : ℕ → T) (l2 : ℕ)
    (i : ℕ) : mulLong lr p1 l1 p2 l2 i = conv (cut p1 l1) (cut p2 l2) i := by
  unfold mulLong conv
  have hsub : Finset.Icc (i - l2) (min i l1) ⊆ Finset.range (i + 1) := by
    intro j hj
    rw [Finset.mem_range]
    have := (Finset.mem_Icc.mp hj).2
    omega
  have hout : ∀ j ∈ Finset.range (i + 1), j ∉ Finset.Icc (i - l2) (min i l1) →
      cut p1 l1 j * cut p2 l2 (i - j) = 0 := by
    intro j hj hj'
    rw [Finset.mem_range] at hj
    rw [Finset.mem_Icc] at hj'
    rcases Nat.lt_or_ge l1 j with hc | hc
    · rw [cut_of_gt p1 hc, zero_mul]
    · have hc2 : l2 < i - j := by omega
      rw [cut_of_gt p2 hc2, mul_zero]
  calc ∑ j ∈ Finset.Icc (i - l2) (min i l1), p1 j * p2 (i - j)
      = ∑ j ∈ Finset.Icc (i - l2) (min i l1), cut p1 l1 j * cut p2 l2 (i - j) := by
        apply Finset.sum_congr rfl
        intro j hj
        rw [Finset.mem_Icc] at hj
        rw [cut_of_le p1 (by omega), cut_of_le p2 (by omega)]
    _ = ∑ j ∈ Finset.range (i + 1), cut p1 l1 j * cut p2 l2 (i - j) :=
        Finset.sum_subset hsub hout


theorem addTo_apply (pr : ℕ → T) (off : ℕ) (p2 : ℕ → T) (l2 : ℤ) (i : ℕ) :
    addTo pr off p2 l2 i =
      if off ≤ i ∧ (i : ℤ) ≤ off + l2 then pr i + p2 (i - off) else pr i := rfl

theorem subFrom_apply (pr : ℕ → T) (off : ℕ) (p2 : ℕ → T) (l2 : ℤ) (i : ℕ) :
    subFrom pr off p2 l2 i =
      if off ≤ i ∧ (i : ℤ) ≤ off + l2 then pr i - p2 (i - off) else pr i := rfl

theorem bufZero_apply (pr : ℕ → T) (lm lr : ℤ) (i : ℕ) :
    bufZero pr lm lr i = if lm < (i : ℤ) ∧ (i : ℤ) ≤ lr then 0 else pr i := rfl

theorem mulKaratsuba_b1 (lr : ℕ) (p1 : ℕ → T) (l1 : ℕ) (p2 : ℕ → T) (l2 : ℕ)
    (h0 : l2 = 0) (hr : lr ≤ l1 + l2) :
    ∀ i ≤ lr, mulKaratsuba lr p1 l1 p2 l2 i = conv (cut p1 l1) (cut p2 l2) i := by
  intro i hi
  rw [mulKaratsuba, if_pos h0]
  show p1 i * p2 0 = conv (cut p1 l1) (cut p2 l2) i
  symm
  unfold conv
  rw [Finset.sum_eq_single_of_mem i (Finset.self_mem_range_succ i)]
  · rw [Nat.sub_self, cut_of_le p1 (by omega), cut_of_le p2 (by omega)]
  · intro b hb hbi
    have hb' : b < i + 1 := Finset.mem_range.mp hb
    have : l2 < i - b := by omega
    rw [cut_of_gt p2 this, mul_zero]

theorem mulKaratsuba_b2 (lr : ℕ) (p1 : ℕ → T) (l1 : ℕ) (p2 : ℕ → T) (l2 : ℕ)
    (IH : MulIH T (l1 + l2)) (h0 : ¬ l2 = 0) (h1 : l2 < l1 / 2 + 1)
    (h21 : l2 ≤ l1) (h1r : l1 ≤ lr) (hr : lr ≤ l1 + l2) :
    ∀ i ≤ lr, mulKaratsuba lr p1 l1 p2 l2 i = conv (cut p1 l1) (cut p2 l2) i := by
  intro i hi
  obtain ⟨k, hkdef⟩ : ∃ k, k = l1 / 2 + 1 := ⟨_, rfl⟩
  have hl1 : 2 ≤ l1 := by omega
  have hk1 : 1 ≤ k := by omega
  have hkl1 : k ≤ l1 := by omega
  rw [mulKaratsuba, if_neg h0, if_pos h1, ← hkdef]
  show addTo
      (bufZero (mulDispatch (min lr (l2 + k - 1)) p1 (k - 1) p2 l2)
        ((l2 : ℤ) + k - 1) lr) k
      (mulDispatch (lr - k) (fun t => p1 (k + t)) (l1 - k) p2 l2)
      ((lr : ℤ) - k) i = conv (cut p1 l1) (cut p2 l2) i
  have hsplit : conv (cut p1 l1) (cut p2 l2) i =
      conv (cut p1 (k - 1)) (cut p2 l2) i +
        (if k ≤ i then conv (cut (fun t => p1 (k + t)) (l1 - k)) (cut p2 l2) (i - k)
          else 0) := by
    have e1 : conv (cut p1 l1) (cut p2 l2) i =
        conv (fun j => cut p1 (k - 1) j +
          (if k ≤ j then cut (fun t => p1 (k + t)) (l1 - k) (j - k) else 0))
          (cut p2 l2) i :=
      conv_congr (fun j _ => cut_split p1 hk1 hkl1 j) (fun _ _ => rfl)
    rw [e1, conv_add_left, conv_shift_left]
  have hMM : ∀ j ≤ lr - k,
      mulDispatch (lr - k) (fun t => p1 (k + t)) (l1 - k) p2 l2 j =
        conv (cut (fun t => p1 (k + t)) (l1 - k)) (cut p2 l2) j :=
    fun j hj => IH _ _ _ _ _ (by omega) j hj
  have hPR : ∀ j ≤ min lr (l2 + k - 1),
      mulDispatch (min lr (l2 + k - 1)) p1 (k - 1) p2 l2 j =
        conv (cut p1 (k - 1)) (cut p2 l2) j :=
    fun j hj => IH _ _ _ _ _ (by omega) j hj
  rw [hsplit, addTo_apply, bufZero_apply]
  by_cases hki : k ≤ i
  · rw [if_pos (show k ≤ i ∧ (i : ℤ) ≤ ↑k + (↑lr - ↑k) by
      constructor
      · exact hki
      · omega)]
    rw [if_pos hki, hMM (i - k) (by omega)]
    by_cases hz : l2 + k - 1 < i
    · rw [if_pos (show ((l2 : ℤ) + ↑k - 1 < (i : ℤ)) ∧ (i : ℤ) ≤ ↑lr by
        constructor <;> omega)]
      have hz0 : conv (cut p1 (k - 1)) (cut p2 l2) i = 0 :=
        conv_cut_zero p1 p2 (show k - 1 + l2 < i by omega)
      rw [hz0]
    · rw [if_neg (show ¬ (((l2 : ℤ) + ↑k - 1 < (i : ℤ)) ∧ (i : ℤ) ≤ ↑lr) by
        intro hAB
        obtain ⟨hA, hB⟩ := hAB
        omega)]
      rw [hPR i (by omega)]
  · rw [if_neg (show ¬ (k ≤ i ∧ (i : ℤ) ≤ ↑k + (↑lr - ↑k)) by
      intro hAB
      exact hki hAB.1)]
    rw [if_neg hki,
        if_neg (show ¬ (((l2 : ℤ) + ↑k - 1 < (i : ℤ)) ∧ (i : ℤ) ≤ ↑lr) by
          intro hAB
          obtain ⟨hA, hB⟩ := hAB
          omega)]
    rw [hPR i (by omega), add_zero]

/-- Assembly argument for the three-product branch of `_mul_karatsuba`.
`A, B` (resp. `C, D`) are the low/high halves of the first (resp. second)
operand, `MMv`, `HHv`, `pr1v` the contents of the scratch buffers `MM`,
`HH` and of the low product written into `pr`.  The `ℤ`-valued loop bounds
of the buffer primitives are abstracted as `b0 … b4` and characterised by
the accompanying hypotheses. -/
theorem karatsuba_b3_assembled (lr k l1 l2 : ℕ) (A B C D MMv HHv pr1v : ℕ → T)
    (b0 blr b1 b2 b3 b4 : ℤ)
    (hk1 : 1 ≤ k) (hkl2 : k ≤ l2) (h21 : l2 ≤ l1) (h1r : l1 ≤ lr)
    (hr : lr ≤ l1 + l2) (hl12 : l1 ≤ 2 * k - 1)
    (hA : ∀ j, k - 1 < j → A j = 0) (hB : ∀ j, l1 - k < j → B j = 0)
    (hC : ∀ j, k - 1 < j → C j = 0) (hD : ∀ j, l2 - k < j → D j = 0)
    (hMM : ∀ j, j ≤ min (lr - k) (k - 1 + (k - 1)) →
      MMv j = conv (fun t => A t + B t) (fun t => C t + D t) j)
    (hHH : ∀ j, j ≤ min (min (lr - k) (k - 1 + (k - 1))) (l1 - k + (l2 - k)) →
      HHv j = conv B D j)
    (hpr1 : ∀ j, j ≤ k - 1 + (k - 1) → pr1v j = conv A C j)
    (hb0 : ∀ j : ℕ, b0 < (j : ℤ) ↔ k - 1 + (k - 1) < j)
    (hblr : ∀ j : ℕ, (j : ℤ) ≤ blr ↔ j ≤ lr)
    (hb1 : ∀ j : ℕ, j ≤ min (lr - k) (k - 1 + (k - 1)) → (j : ℤ) ≤ 0 + b1)
    (hb2 : ∀ j : ℕ, (j : ℤ) ≤ 0 + b2 ↔
      j ≤ min (min (lr - k) (k - 1 + (k - 1))) (l1 - k + (l2 - k)))
    (hb3 : ∀ j : ℕ, (j : ℤ) ≤ (k : ℤ) + b3 ↔
      j ≤ k + min (lr - k) (k - 1 + (k - 1)))
    (hb4 : ∀ j : ℕ, j ≤ lr → (j : ℤ) ≤ ((k + k : ℕ) : ℤ) + b4)
    (i : ℕ) (hi : i ≤ lr) :
    addTo
      (addTo (bufZero pr1v b0 blr) k
        (subFrom (subFrom MMv 0 (bufZero pr1v b0 blr) b1) 0 HHv b2) b3)
      (k + k) HHv b4 i =
    conv (fun j => A j + (if k ≤ j then B (j - k) else 0))
      (fun j => C j + (if k ≤ j then D (j - k) else 0)) i := by
  have hl1k : l1 - k ≤ k - 1 := by omega
  have hl2k : l2 - k ≤ k - 1 := by omega
  -- the right-hand side, expanded into the four partial products
  have hR : conv (fun j => A j + (if k ≤ j then B (j - k) else 0))
      (fun j => C j + (if k ≤ j then D (j - k) else 0)) i =
      conv A C i +
        ((if k ≤ i then conv A D (i - k) else 0) +
          (if k ≤ i then conv B C (i - k) else 0)) +
        (if k + k ≤ i then conv B D (i - (k + k)) else 0) := by
    rw [conv_add_left, conv_add_right, conv_add_right, conv_shift_right,
      conv_shift_left, conv_shift_left]
    by_cases hk : k ≤ i
    · rw [if_pos hk, if_pos hk, if_pos hk, conv_shift_right]
      by_cases h2k : k ≤ i - k
      · rw [if_pos h2k, if_pos (by omega : k + k ≤ i),
          show i - k - k = i - (k + k) by omega]
        ring
      · rw [if_neg h2k, if_neg (by omega : ¬ k + k ≤ i)]
        ring
    · rw [if_neg hk, if_neg hk, if_neg hk, if_neg (by omega : ¬ k + k ≤ i)]
      ring
  rw [hR]
  -- contents of pr after the low product and the zero fill
  have hpr2 : ∀ j, j ≤ lr → bufZero pr1v b0 blr j = conv A C j := by
    intro j hj
    rw [bufZero_apply]
    by_cases hb : k - 1 + (k - 1) < j
    · rw [if_pos ⟨(hb0 j).mpr hb, (hblr j).mpr hj⟩]
      symm
      exact conv_eq_zero_of_support hA hC (by omega)
    · rw [if_neg (fun hAB => hb ((hb0 j).mp hAB.1))]
      exact hpr1 j (by omega)
  -- contents of MM after the two subtractions
  have hMM2 : ∀ j, j ≤ min (lr - k) (k - 1 + (k - 1)) →
      subFrom (subFrom MMv 0 (bufZero pr1v b0 blr) b1) 0 HHv b2 j =
      conv A D j + conv B C j := by
    intro j hj
    have hinner : subFrom MMv 0 (bufZero pr1v b0 blr) b1 j =
        conv A D j + conv B C j + conv B D j := by
      rw [subFrom_apply, if_pos ⟨Nat.zero_le j, hb1 j hj⟩, Nat.sub_zero,
        hMM j hj, hpr2 j (by omega), conv_add_left, conv_add_right,
        conv_add_right]
      ring
    rw [subFrom_apply]
    by_cases hcase : j ≤ min (min (lr - k) (k - 1 + (k - 1))) (l1 - k + (l2 - k))
    · rw [if_pos ⟨Nat.zero_le j, (hb2 j).mpr hcase⟩, Nat.sub_zero, hinner,
        hHH j (by omega)]
      ring
    · rw [if_neg (fun hAB => hcase ((hb2 j).mp hAB.2)), hinner]
      have hBD0 : conv B D j = 0 :=
        conv_eq_zero_of_support hB hD (by omega)
      rw [hBD0]
      ring
  -- contents of pr after adding the middle product at offset k
  have hpr3 : ∀ j, j ≤ lr →
      addTo (bufZero pr1v b0 blr) k
        (subFrom (subFrom MMv 0 (bufZero pr1v b0 blr) b1) 0 HHv b2) b3 j =
      conv A C j +
        ((if k ≤ j then conv A D (j - k) else 0) +
          (if k ≤ j then conv B C (j - k) else 0)) := by
    intro j hj
    rw [addTo_apply]
    by_cases hkj : k ≤ j
    · by_cases hjm : j ≤ k + min (lr - k) (k - 1 + (k - 1))
      · rw [if_pos ⟨hkj, (hb3 j).mpr hjm⟩, hpr2 j hj, hMM2 (j - k) (by omega),
          if_pos hkj, if_pos hkj]
      · rw [if_neg (fun hAB => hjm ((hb3 j).mp hAB.2)), hpr2 j hj,
          if_pos hkj, if_pos hkj]
        have hAD0 : conv A D (j - k) = 0 :=
          conv_eq_zero_of_support hA hD (by omega)
        have hBC0 : conv B C (j - k) = 0 :=
          conv_eq_zero_of_support hB hC (by omega)
        rw [hAD0, hBC0]
        ring
    · rw [if_neg (fun hAB => hkj hAB.1), hpr2 j hj, if_neg hkj, if_neg hkj]
      ring
  rw [addTo_apply]
  by_cases h2k : k + k ≤ i
  · rw [if_pos ⟨h2k, hb4 i hi⟩, hpr3 i hi, if_pos h2k,
      hHH (i - (k + k)) (by omega)]
  · rw [if_neg (fun hAB => h2k hAB.1), hpr3 i hi, if_neg h2k, add_zero]

theorem mulKaratsuba_b3 (lr : ℕ) (p1 : ℕ → T) (l1 : ℕ) (p2 : ℕ → T) (l2 : ℕ)
    (IH : MulIH T (l1 + l2)) (h0 : ¬ l2 = 0) (h1 : ¬ l2 < l1 / 2 + 1)
    (h21 : l2 ≤ l1) (h1r : l1 ≤ lr) (hr : lr ≤ l1 + l2) :
    ∀ i ≤ lr, mulKaratsuba lr p1 l1 p2 l2 i = conv (cut p1 l1) (cut p2 l2) i := by
  intro i hi
  obtain ⟨k, hkdef⟩ : ∃ k, k = l1 / 2 + 1 := ⟨_, rfl⟩
  have hk1 : 1 ≤ k := by omega
  have hkl2 : k ≤ l2 := by omega
  have hkl1 : k ≤ l1 := by omega
  have hl12 : l1 ≤ 2 * k - 1 := by omega
  rw [mulKaratsuba, if_neg h0, if_neg h1, ← hkdef]
  have hsplit : conv (cut p1 l1) (cut p2 l2) i =
      conv
        (fun j => cut p1 (k - 1) j +
          (if k ≤ j then cut (fun t => p1 (k + t)) (l1 - k) (j - k) else 0))
        (fun j => cut p2 (k - 1) j +
          (if k ≤ j then cut (fun t => p2 (k + t)) (l2 - k) (j - k) else 0)) i :=
    conv_congr (fun j _ => cut_split p1 hk1 hkl1 j)
      (fun j _ => cut_split p2 hk1 hkl2 j)
  rw [hsplit]
  have hS1 : ∀ t, cut (addTo p1 0 (fun u => p1 (k + u)) ((l1 : ℤ) - k)) (k - 1) t =
      cut p1 (k - 1) t + cut (fun u => p1 (k + u)) (l1 - k) t := by
    intro t
    by_cases ht : t ≤ k - 1
    · rw [cut_of_le _ ht, cut_of_le p1 ht, addTo_apply]
      by_cases ht2 : t ≤ l1 - k
      · rw [if_pos ⟨Nat.zero_le t, by omega⟩, Nat.sub_zero, cut_of_le _ ht2]
      · rw [if_neg (fun hAB => ht2 (by
            have h2 := hAB.2
            omega)), cut_of_gt _ (by omega), add_zero]
    · rw [cut_of_gt _ (by omega), cut_of_gt p1 (by omega), cut_of_gt _ (by omega),
        add_zero]
  have hS2 : ∀ t, cut (addTo p2 0 (fun u => p2 (k + u)) ((l2 : ℤ) - k)) (k - 1) t =
      cut p2 (k - 1) t + cut (fun u => p2 (k + u)) (l2 - k) t := by
    intro t
    by_cases ht : t ≤ k - 1
    · rw [cut_of_le _ ht, cut_of_le p2 ht, addTo_apply]
      by_cases ht2 : t ≤ l2 - k
      · rw [if_pos ⟨Nat.zero_le t, by omega⟩, Nat.sub_zero, cut_of_le _ ht2]
      · rw [if_neg (fun hAB => ht2 (by
            have h2 := hAB.2
            omega)), cut_of_gt _ (by omega), add_zero]
    · rw [cut_of_gt _ (by omega), cut_of_gt p2 (by omega), cut_of_gt _ (by omega),
        add_zero]
  refine karatsuba_b3_assembled lr k l1 l2 _ _ _ _ _ _ _ _ _ _ _ _ _
    hk1 hkl2 h21 h1r hr hl12
    ?_ ?_ ?_ ?_ ?_ ?_ ?_ ?_ ?_ ?_ ?_ ?_ ?_ i hi
  · exact fun j hj => cut_of_gt p1 hj
  · exact fun j hj => cut_of_gt _ hj
  · exact fun j hj => cut_of_gt p2 hj
  · exact fun j hj => cut_of_gt _ hj
  · intro j hj
    rw [IH _ _ _ _ _ (by omega) j hj]
    exact conv_congr (fun t _ => hS1 t) (fun t _ => hS2 t)
  · intro j hj
    exact IH _ _ _ _ _ (by omega) j hj
  · intro j hj
    rw [IH _ _ _ _ _ (by omega) j hj]
  · intro j
    constructor <;> (intro h; omega)
  · intro j
    constructor <;> (intro h; omega)
  · intro j hj
    push_cast
    omega
  · intro j
    constructor <;> (intro h; push_cast at h ⊢; omega)
  · intro j
    constructor <;> (intro h; push_cast at h ⊢; omega)
  · intro j hj
    push_cast
    omega

theorem mulKaratsuba_step (lr : ℕ) (p1 : ℕ → T) (l1 : ℕ) (p2 : ℕ → T) (l2 : ℕ)
    (IH : MulIH T (l1 + l2))
    (h21 : l2 ≤ l1) (h1r : l1 ≤ lr) (hr : lr ≤ l1 + l2) :
    ∀ i ≤ lr, mulKaratsuba lr p1 l1 p2 l2 i = conv (cut p1 l1) (cut p2 l2) i := by
  by_cases h0 : l2 = 0
  · exact mulKaratsuba_b1 lr p1 l1 p2 l2 h0 hr
  · by_cases h1 : l2 < l1 / 2 + 1
    · exact mulKaratsuba_b2 lr p1 l1 p2 l2 IH h0 h1 h21 h1r hr
    · exact mulKaratsuba_b3 lr p1 l1 p2 l2 IH h0 h1 h21 h1r hr

theorem mulDispatch_noswap (lr : ℕ) (p1 : ℕ → T) (l1 : ℕ) (p2 : ℕ → T) (l2 : ℕ)
    (IH : MulIH T (l1 + l2)) (hsw : ¬ l2 > l1) :
    ∀ i ≤ lr, mulDispatch lr p1 l1 p2 l2 i = conv (cut p1 l1) (cut p2 l2) i := by
  intro i hi
  rw [mulDispatch, if_neg hsw]
  split_ifs with hz
  · symm
    rcases Nat.lt_or_ge l1 lr with hc | hc
    · have hc2 : l2 < lr := by omega
      apply conv_cut_zero
      omega
    · omega
  · rw [polynomMulImpl]
    split_ifs with h48
    · rw [mulLong_eq_conv]
      exact conv_cut_clamp p1 p2 hi
    · rw [mulKaratsuba_step (min lr (min l1 lr + min l2 lr)) p1 (min l1 lr) p2
        (min l2 lr) (fun lr' q1 m1 q2 m2 hm => IH lr' q1 m1 q2 m2 (by omega))
        (by omega) (by omega) (by omega) i (by omega)]
      exact conv_cut_clamp p1 p2 hi

theorem mulIH_all (n : ℕ) : MulIH T n := by
  induction n using Nat.strong_induction_on with
  | _ n IHn =>
    intro lr p1 l1 p2 l2 hsum i hi
    by_cases hsw : l2 > l1
    · rw [mulDispatch, if_pos hsw,
        mulDispatch_noswap lr p2 l2 p1 l1 (IHn (l2 + l1) (by omega))
          (by omega) i hi]
      exact conv_comm (cut p2 l2) (cut p1 l1) i
    · exact mulDispatch_noswap lr p1 l1 p2 l2 (IHn (l1 + l2) hsum) hsw i hi

/-- `polynom<T>::_mul` computes the Cauchy product of its (truncated)
operands on every requested index. -/
theorem mulDispatch_eq_conv (lr : ℕ) (p1 : ℕ → T) (l1 : ℕ) (p2 : ℕ → T)
    (l2 : ℕ) : ∀ i ≤ lr,
    mulDispatch lr p1 l1 p2 l2 i = conv (cut p1 l1) (cut p2 l2) i :=
  fun i hi => mulIH_all (l1 + l2 + 1) lr p1 l1 p2 l2 (by omega) i hi

end MulCorrect

/-! ## Alias safety of the multiplication kernels

The imperative re-embedding (`descExec`, `karatsubaExec`, `implExec`,
`mulExecV`) is proven to write, even when an operand view is `self`,
exactly the values of the functional embedding (`mulDispatch`, i.e. the
truncated Cauchy product) into `[0, lr]`, leaving the rest of the buffer
unchanged.  The key step is `descExec_spec`: a descending write loop whose
body only reads positions `≤` the index being written behaves as if it
read the original buffer throughout. -/

section AliasTheorems

variable {T : Type} [CommRing T]

theorem MView.read_congr (v : MView T) {b b' : ℕ → T} {i : ℕ}
    (h : b i = b' i) : v.read b i = v.read b' i := by
  cases v
  · exact h
  · rfl

/-- A descending write loop whose body `F` reads the buffer only at
positions `≤` the index currently being written (hypothesis `hF`)
computes every written value against the original buffer contents:
positions `≥ n` have not been touched yet when index `n - 1 … 0` is
written, so all reads see original data. -/
theorem descExec_spec (F : (ℕ → T) → ℕ → T) (buf0 : ℕ → T)
    (hF : ∀ (b b' : ℕ → T) (i : ℕ), (∀ y, y ≤ i → b y = b' y) → F b i = F b' i) :
    ∀ (n : ℕ) (buf : ℕ → T), (∀ x, x < n → buf x = buf0 x) →
      ∀ x, descExec F n buf x = if x < n then F buf0 x else buf x := by
  intro n
  induction n with
  | zero =>
    intro buf _ x
    rw [descExec, if_neg (by omega)]
  | succ n ih =>
    intro buf hagree x
    rw [descExec]
    rw [ih (fun y => if y = n then F buf n else buf y)
      (fun y hy => by
        show (if y = n then F buf n else buf y) = buf0 y
        rw [if_neg (by omega)]
        exact hagree y (by omega)) x]
    by_cases hx : x < n
    · rw [if_pos hx, if_pos (by omega)]
    · by_cases hxn : x = n
      · rw [if_neg hx, if_pos hxn, if_pos (by omega), hxn]
        exact hF buf buf0 n (fun y hy => hagree y (by omega))
      · rw [if_neg hx, if_neg hxn, if_neg (by omega)]

/-- Pointwise congruence for `_add_to` at one output index: the source is
only consulted inside the write window. -/
theorem addTo_apply_congr {pr pr' p2 p2' : ℕ → T} {off : ℕ} {l2 : ℤ} {x : ℕ}
    (hpr : pr x = pr' x)
    (hp2 : off ≤ x → (x : ℤ) ≤ off + l2 → p2 (x - off) = p2' (x - off)) :
    addTo pr off p2 l2 x = addTo pr' off p2' l2 x := by
  unfold addTo
  split_ifs with h
  · rw [hpr, hp2 h.1 h.2]
  · exact hpr

/-- Pointwise congruence for `_sub_from` at one output index. -/
theorem subFrom_apply_congr {pr pr' p2 p2' : ℕ → T} {off : ℕ} {l2 : ℤ} {x : ℕ}
    (hpr : pr x = pr' x)
    (hp2 : off ≤ x → (x : ℤ) ≤ off + l2 → p2 (x - off) = p2' (x - off)) :
    subFrom pr off p2 l2 x = subFrom pr' off p2' l2 x := by
  unfold subFrom
  split_ifs with h
  · rw [hpr, hp2 h.1 h.2]
  · exact hpr

/-- Pointwise congruence for `_zero` at one output index: the previous
contents only matter outside the zeroed window. -/
theorem bufZero_apply_congr {pr pr' : ℕ → T} {lm lr : ℤ} {x : ℕ}
    (hpr : ¬ (lm < (x : ℤ) ∧ (x : ℤ) ≤ lr) → pr x = pr' x) :
    bufZero pr lm lr x = bufZero pr' lm lr x := by
  unfold bufZero
  split_ifs with h
  · rfl
  · exact hpr h

/-- `_mul_karatsuba` on a live buffer with (possibly aliased) operand
views writes the same values as the functional embedding computed from
the operands as read before the call: all scratch products are taken from
snapshots made before the first write, the recursive in-place call is
covered by the inductive hypothesis, and the remaining writes never read
the operands again. -/
theorem karatsubaExec_step (v1 v2 : MView T) (lr l1 l2 : ℕ) (buf : ℕ → T)
    (IH : AliasIH T (l1 + l2)) (h21 : l2 ≤ l1) (h1r : l1 ≤ lr) (hr : lr ≤ l1 + l2) :
    ∀ x, karatsubaExec v1 v2 lr l1 l2 buf x =
      if x ≤ lr then
        conv (cut (fun i => MView.read v1 buf i) l1)
          (cut (fun i => MView.read v2 buf i) l2) x
      else buf x := by
  have hM := mulKaratsuba_step lr (fun i => MView.read v1 buf i) l1
    (fun i => MView.read v2 buf i) l2 (mulIH_all (l1 + l2)) h21 h1r hr
  obtain ⟨k, hkdef⟩ : ∃ k, k = l1 / 2 + 1 := ⟨_, rfl⟩
  intro x
  by_cases h0 : l2 = 0
  · rw [karatsubaExec, if_pos h0]
    rw [descExec_spec (fun b i => MView.read v1 b i * MView.read v2 b 0) buf
      (fun b b' i h => by
        show MView.read v1 b i * MView.read v2 b 0
          = MView.read v1 b' i * MView.read v2 b' 0
        rw [MView.read_congr v1 (h i le_rfl), MView.read_congr v2 (h 0 (Nat.zero_le i))])
      (lr + 1) buf (fun _ _ => rfl) x]
    by_cases hx : x ≤ lr
    · rw [if_pos (show x < lr + 1 by omega), if_pos hx, ← hM x hx, mulKaratsuba,
        if_pos h0]
    · rw [if_neg (show ¬ x < lr + 1 by omega), if_neg hx]
  · by_cases h1 : l2 < l1 / 2 + 1
    · -- two-product branch: one scratch product from a pre-write snapshot,
      -- one recursive in-place call, then `_zero` and `_add_to`.
      rw [karatsubaExec, if_neg h0, if_pos h1]
      by_cases hx : x ≤ lr
      · rw [if_pos hx, ← hM x hx, mulKaratsuba, if_neg h0, if_pos h1, ← hkdef]
        beta_reduce
        refine addTo_apply_congr ?_ ?_
        · refine bufZero_apply_congr ?_
          intro hout
          rw [IH v1 v2 (min lr (l2 + k - 1)) (k - 1) l2 buf (by omega) x,
            if_pos (show x ≤ min lr (l2 + k - 1) by omega),
            mulDispatch_eq_conv (min lr (l2 + k - 1))
              (fun i => MView.read v1 buf i) (k - 1)
              (fun i => MView.read v2 buf i) l2 x (by omega)]
        · intro hc1 hc2
          rw [IH (MView.pure (fun i => MView.read v1 buf (k + i)))
              (MView.pure (fun i => MView.read v2 buf i)) (lr - k) (l1 - k) l2
              (fun _ => 0) (by omega) (x - k),
            if_pos (show x - k ≤ lr - k by omega),
            mulDispatch_eq_conv (lr - k) (fun i => MView.read v1 buf (k + i))
              (l1 - k) (fun i => MView.read v2 buf i) l2 (x - k) (by omega)]
          exact conv_congr (fun j _ => rfl) (fun j _ => rfl)
      · rw [if_neg hx, ← hkdef, addTo_apply,
          if_neg (show ¬ (k ≤ x ∧ (x : ℤ) ≤ ↑k + ((lr : ℤ) - ↑k)) by omega),
          bufZero_apply,
          if_neg (show ¬ ((l2 : ℤ) + ↑k - 1 < (x : ℤ) ∧ (x : ℤ) ≤ (lr : ℤ)) by omega),
          IH v1 v2 (min lr (l2 + k - 1)) (k - 1) l2 buf (by omega) x,
          if_neg (show ¬ x ≤ min lr (l2 + k - 1) by omega)]
    · -- three-product branch: `S1`, `S2`, `MM`, `HH` are all computed
      -- before the first write into the destination.
      rw [karatsubaExec, if_neg h0, if_neg h1]
      by_cases hx : x ≤ lr
      · rw [if_pos hx, ← hM x hx, mulKaratsuba, if_neg h0, if_neg h1, ← hkdef]
        beta_reduce
        refine addTo_apply_congr ?_ ?_
        · refine addTo_apply_congr ?_ ?_
          · refine bufZero_apply_congr ?_
            intro hout
            rw [IH v1 v2 (k - 1 + (k - 1)) (k - 1) (k - 1) buf (by omega) x,
              if_pos (show x ≤ k - 1 + (k - 1) by omega),
              mulDispatch_eq_conv (k - 1 + (k - 1))
                (fun i => MView.read v1 buf i) (k - 1)
                (fun i => MView.read v2 buf i) (k - 1) x (by omega)]
          · intro hc1 hc2
            refine subFrom_apply_congr ?_ ?_
            · refine subFrom_apply_congr ?_ ?_
              · rw [IH (MView.pure (addTo (fun i => MView.read v1 buf i) 0
                      (fun i => MView.read v1 buf (k + i)) ((l1 : ℤ) - (k : ℤ))))
                    (MView.pure (addTo (fun i => MView.read v2 buf i) 0
                      (fun i => MView.read v2 buf (k + i)) ((l2 : ℤ) - (k : ℤ))))
                    (min (lr - k) (k - 1 + (k - 1))) (k - 1) (k - 1)
                    (fun _ => 0) (by omega) (x - k),
                  if_pos (show x - k ≤ min (lr - k) (k - 1 + (k - 1)) by omega),
                  mulDispatch_eq_conv (min (lr - k) (k - 1 + (k - 1)))
                    (addTo (fun i => MView.read v1 buf i) 0
                      (fun i => MView.read v1 buf (k + i)) ((l1 : ℤ) - (k : ℤ)))
                    (k - 1)
                    (addTo (fun i => MView.read v2 buf i) 0
                      (fun i => MView.read v2 buf (k + i)) ((l2 : ℤ) - (k : ℤ)))
                    (k - 1) (x - k) (by omega)]
                exact conv_congr (fun j _ => rfl) (fun j _ => rfl)
              · intro h01 h02
                refine bufZero_apply_congr ?_
                intro hout2
                rw [IH v1 v2 (k - 1 + (k - 1)) (k - 1) (k - 1) buf (by omega)
                    (x - k - 0),
                  if_pos (show x - k - 0 ≤ k - 1 + (k - 1) by omega),
                  mulDispatch_eq_conv (k - 1 + (k - 1))
                    (fun i => MView.read v1 buf i) (k - 1)
                    (fun i => MView.read v2 buf i) (k - 1) (x - k - 0) (by omega)]
            · intro h01 h02
              rw [IH (MView.pure (fun i => MView.read v1 buf (k + i)))
                  (MView.pure (fun i => MView.read v2 buf (k + i)))
                  (min (min (lr - k) (k - 1 + (k - 1))) (l1 - k + (l2 - k)))
                  (l1 - k) (l2 - k) (fun _ => 0) (by omega) (x - k - 0),
                if_pos (show x - k - 0
                  ≤ min (min (lr - k) (k - 1 + (k - 1))) (l1 - k + (l2 - k)) by omega),
                mulDispatch_eq_conv
                  (min (min (lr - k) (k - 1 + (k - 1))) (l1 - k + (l2 - k)))
                  (fun i => MView.read v1 buf (k + i)) (l1 - k)
                  (fun i => MView.read v2 buf (k + i)) (l2 - k) (x - k - 0) (by omega)]
              exact conv_congr (fun j _ => rfl) (fun j _ => rfl)
        · intro hc1 hc2
          rw [IH (MView.pure (fun i => MView.read v1 buf (k + i)))
              (MView.pure (fun i => MView.read v2 buf (k + i)))
              (min (min (lr - k) (k - 1 + (k - 1))) (l1 - k + (l2 - k)))
              (l1 - k) (l2 - k) (fun _ => 0) (by omega) (x - (k + k)),
            if_pos (show x - (k + k)
              ≤ min (min (lr - k) (k - 1 + (k - 1))) (l1 - k + (l2 - k)) by omega),
            mulDispatch_eq_conv
              (min (min (lr - k) (k - 1 + (k - 1))) (l1 - k + (l2 - k)))
              (fun i => MView.read v1 buf (k + i)) (l1 - k)
              (fun i => MView.read v2 buf (k + i)) (l2 - k) (x - (k + k)) (by omega)]
          exact conv_congr (fun j _ => rfl) (fun j _ => rfl)
      · rw [if_neg hx, ← hkdef, addTo_apply,
          if_neg (show ¬ (k + k ≤ x ∧
            (x : ℤ) ≤ ↑(k + k) + ((lr : ℤ) - ((k : ℤ) + (k : ℤ)))) by omega),
          addTo_apply,
          if_neg (show ¬ (k ≤ x ∧
            (x : ℤ) ≤ ↑k + ((min (lr - k) (k - 1 + (k - 1)) : ℕ) : ℤ)) by omega),
          bufZero_apply,
          if_neg (show ¬ ((k : ℤ) - 1 + ((k : ℤ) - 1) < (x : ℤ) ∧
            (x : ℤ) ≤ (lr : ℤ)) by omega),
          IH v1 v2 (k - 1 + (k - 1)) (k - 1) (k - 1) buf (by omega) x,
          if_neg (show ¬ x ≤ k - 1 + (k - 1) by omega)]

/-- `polynom_mul<T>::impl` on a live buffer: the schoolbook loop writes
from high to low index and at index `i` reads its operands only at
positions `≤ i`, so `descExec_spec` applies; the Karatsuba path is
`karatsubaExec_step`. -/
theorem implExec_step (v1 v2 : MView T) (lr l1 l2 : ℕ) (buf : ℕ → T)
    (IH : AliasIH T (l1 + l2)) (h21 : l2 ≤ l1) (h1r : l1 ≤ lr) (hr : lr ≤ l1 + l2) :
    ∀ x, implExec v1 v2 lr l1 l2 buf x =
      if x ≤ lr then
        conv (cut (fun i => MView.read v1 buf i) l1)
          (cut (fun i => MView.read v2 buf i) l2) x
      else buf x := by
  intro x
  by_cases h48 : l2 < 48
  · rw [implExec, if_pos h48]
    rw [descExec_spec (fun b i => ∑ j ∈ Finset.Icc (i - l2) (min i l1),
        MView.read v1 b j * MView.read v2 b (i - j)) buf
      (fun b b' i h => by
        show (∑ j ∈ Finset.Icc (i - l2) (min i l1),
            MView.read v1 b j * MView.read v2 b (i - j))
          = ∑ j ∈ Finset.Icc (i - l2) (min i l1),
            MView.read v1 b' j * MView.read v2 b' (i - j)
        refine Finset.sum_congr rfl (fun j hj => ?_)
        rw [Finset.mem_Icc] at hj
        rw [MView.read_congr v1 (h j (by omega)),
          MView.read_congr v2 (h (i - j) (by omega))])
      (lr + 1) buf (fun _ _ => rfl) x]
    by_cases hx : x ≤ lr
    · rw [if_pos (show x < lr + 1 by omega), if_pos hx,
        ← mulLong_eq_conv lr (fun i => MView.read v1 buf i) l1
          (fun i => MView.read v2 buf i) l2 x]
      rfl
    · rw [if_neg (show ¬ x < lr + 1 by omega), if_neg hx]
  · rw [implExec, if_neg h48]
    exact karatsubaExec_step v1 v2 lr l1 l2 buf IH h21 h1r hr x

/-- `_mul` on a live buffer, operands already ordered (`l2 ≤ l1`): the
zero-fill above `l1 + l2` touches no position any kernel reads (operand
reads stay `≤ min l1 lr + min l2 lr`), so the result is the truncated
Cauchy product of the operands as read before the call. -/
theorem mulExecV_noswap (v1 v2 : MView T) (lr l1 l2 : ℕ) (buf : ℕ → T)
    (IH : AliasIH T (l1 + l2)) (hsw : ¬ l2 > l1) :
    ∀ x, mulExecV v1 v2 lr l1 l2 buf x =
      if x ≤ lr then
        conv (cut (fun i => MView.read v1 buf i) l1)
          (cut (fun i => MView.read v2 buf i) l2) x
      else buf x := by
  intro x
  rw [mulExecV, if_neg hsw]
  rw [implExec_step v1 v2 (min lr (min l1 lr + min l2 lr)) (min l1 lr) (min l2 lr)
    (bufZero buf ((min l1 lr + min l2 lr : ℕ) : ℤ) (lr : ℤ))
    (fun w1 w2 lr0 m1 m2 b0 hm => IH w1 w2 lr0 m1 m2 b0 (by omega))
    (by omega) (by omega) (by omega) x]
  by_cases hx2 : x ≤ min lr (min l1 lr + min l2 lr)
  · rw [if_pos hx2, if_pos (show x ≤ lr by omega),
      ← conv_cut_clamp (fun i => MView.read v1 buf i) (fun i => MView.read v2 buf i)
        (show x ≤ lr by omega)]
    refine conv_congr (fun j hj => ?_) (fun j hj => ?_)
    · by_cases hjl : j ≤ min l1 lr
      · rw [cut_of_le _ hjl, cut_of_le _ hjl]
        show MView.read v1
            (bufZero buf ((min l1 lr + min l2 lr : ℕ) : ℤ) (lr : ℤ)) j
          = MView.read v1 buf j
        exact MView.read_congr v1 (by rw [bufZero_apply, if_neg (by omega)])
      · rw [cut_of_gt _ (by omega), cut_of_gt _ (by omega)]
    · by_cases hjl : j ≤ min l2 lr
      · rw [cut_of_le _ hjl, cut_of_le _ hjl]
        show MView.read v2
            (bufZero buf ((min l1 lr + min l2 lr : ℕ) : ℤ) (lr : ℤ)) j
          = MView.read v2 buf j
        exact MView.read_congr v2 (by rw [bufZero_apply, if_neg (by omega)])
      · rw [cut_of_gt _ (by omega), cut_of_gt _ (by omega)]
  · by_cases hx : x ≤ lr
    · rw [if_neg hx2, if_pos hx, bufZero_apply, if_pos (by omega)]
      symm
      exact conv_cut_zero _ _ (show l1 + l2 < x by omega)
    · rw [if_neg hx2, if_neg hx, bufZero_apply, if_neg (by omega)]

/-- The aliasing invariant holds for every size: by strong induction, an
in-place `_mul` call behaves exactly like the functional `_mul` applied
to the operand contents read before the call. -/
theorem aliasIH_all (n : ℕ) : AliasIH T n := by
  induction n using Nat.strong_induction_on with
  | _ n IHn =>
    intro v1 v2 lr l1 l2 buf hsum x
    by_cases hsw : l2 > l1
    · rw [mulExecV, if_pos hsw,
        mulExecV_noswap v2 v1 lr l2 l1 buf (IHn (l2 + l1) (by omega)) (by omega) x]
      by_cases hx : x ≤ lr
      · rw [if_pos hx, if_pos hx]
        exact conv_comm _ _ x
      · rw [if_neg hx, if_neg hx]
    · exact mulExecV_noswap v1 v2 lr l1 l2 buf (IHn (l1 + l2) hsum) hsw x

end AliasTheorems


/-! ### Value-level lemmas about the container -/

namespace polynom

section ContainerLemmas

variable {T : Type} [CommRing T] [DecidableEq T]

theorem at'_eq_getD (p : polynom T) (i : ℕ) : p.at' i = p.c.getD i 0 := rfl

theorem at'_of_ge_size (p : polynom T) {i : ℕ} (h : p.size ≤ i) : p.at' i = 0 :=
  List.getD_eq_default _ _ h

theorem at'_mk_map (f : ℕ → T) (n i : ℕ) :
    (polynom.mk ((List.range n).map f)).at' i = if i < n then f i else 0 := by
  by_cases h : i < n
  · rw [if_pos h, at'_eq_getD, List.getD_eq_getElem?_getD, List.getElem?_map,
      List.getElem?_range h]
    rfl
  · rw [if_neg h]
    apply at'_of_ge_size
    show ((List.range n).map f).length ≤ i
    rw [List.length_map, List.length_range]
    omega

theorem size_mk_map (f : ℕ → T) (n : ℕ) :
    (polynom.mk ((List.range n).map f)).size = n := by
  show ((List.range n).map f).length = n
  rw [List.length_map, List.length_range]

theorem degLoop_le (c : List T) (i : ℕ) : degLoop c i ≤ i := by
  induction i with
  | zero => exact le_refl _
  | succ i ih =>
    simp only [degLoop]
    split_ifs with h
    · exact le_refl _
    · omega

theorem degLoop_gt_eq_zero (c : List T) (i : ℕ) :
    ∀ t, degLoop c i < t → t ≤ i → c.getD t 0 = 0 := by
  induction i with
  | zero => intro t h1 h2; omega
  | succ i ih =>
    intro t h1 h2
    simp only [degLoop] at h1
    split_ifs at h1 with h
    · omega
    · rcases Nat.lt_or_ge (degLoop c i) t with hc | hc
      · rcases Nat.eq_or_lt_of_le h2 with he | hl
        · rw [he]
          exact not_ne_iff.mp h
        · exact ih t h1 (by omega)
      · omega

theorem degLoop_nonzero (c : List T) (i : ℕ) :
    degLoop c i ≠ 0 → c.getD (degLoop c i) 0 ≠ 0 := by
  induction i with
  | zero => intro h; exact absurd rfl h
  | succ i ih =>
    intro h
    simp only [degLoop] at h ⊢
    split_ifs with hc
    · exact hc
    · rw [if_neg hc] at h
      exact ih h

theorem degLoop_ge (c : List T) (i : ℕ) {t : ℕ} (h0 : 0 < t) (ht : t ≤ i)
    (hc : c.getD t 0 ≠ 0) : t ≤ degLoop c i := by
  by_contra hlt
  exact hc (degLoop_gt_eq_zero c i t (by omega) ht)

/-- Coefficients above the degree are zero. -/
theorem at'_of_deg_lt (p : polynom T) {n : ℕ} (h : p.deg < n) : p.at' n = 0 := by
  rcases Nat.lt_or_ge n p.size with hn | hn
  · exact degLoop_gt_eq_zero p.c (p.size - 1) n h (by omega)
  · exact at'_of_ge_size p hn

theorem deg_le_size (p : polynom T) : p.deg ≤ p.size - 1 := degLoop_le _ _

/-- A non-zero coefficient bounds the degree from below. -/
theorem le_deg_of_ne (p : polynom T) {n : ℕ} (h : p.at' n ≠ 0) : n ≤ p.deg := by
  by_contra hlt
  exact h (at'_of_deg_lt p (by omega))

theorem leading_ne_zero (p : polynom T) (h : p.deg ≠ 0) :
    p.leading_coeff ≠ 0 :=
  degLoop_nonzero p.c (p.size - 1) h

theorem listResize_length (l : List T) (sz : ℕ) :
    (listResize l sz).length = sz := by
  unfold listResize
  rw [List.length_append, List.length_take, List.length_replicate]
  omega

theorem listResize_getD (l : List T) (sz i : ℕ) :
    (listResize l sz).getD i 0 = if i < sz then l.getD i 0 else 0 := by
  by_cases hi : i < sz
  · rw [if_pos hi]
    unfold listResize
    by_cases hil : i < l.length
    · rw [List.getD_append _ _ _ _ (by rw [List.length_take]; omega)]
      rw [List.getD_eq_getElem?_getD, List.getElem?_take_of_lt hi,
        ← List.getD_eq_getElem?_getD]
    · rw [List.getD_append_right _ _ _ _ (by rw [List.length_take]; omega)]
      have h1 : (List.take sz l).length = l.length := by
        rw [List.length_take]
        omega
      rw [h1]
      have h2 : i - l.length < sz - l.length := by omega
      have h3 : (List.replicate (sz - l.length) (0 : T)).getD (i - l.length) 0
          = 0 := by
        rw [List.getD_eq_getElem?_getD, List.getElem?_replicate, if_pos h2]
        rfl
      rw [h3, List.getD_eq_default _ _ (by omega)]
  · rw [if_neg hi]
    apply List.getD_eq_default
    rw [listResize_length]
    omega

/-- `resize` keeps the first `sz` coefficients and nothing else. -/
theorem resize_at' (p : polynom T) (sz i : ℕ) :
    (p.resize sz).at' i = if i < sz then p.at' i else 0 := by
  unfold resize
  split_ifs with h hsz hsz
  · show (listResize p.c sz).getD i 0 = p.at' i
    rw [listResize_getD, if_pos hsz]
    rfl
  · show (listResize p.c sz).getD i 0 = 0
    rw [listResize_getD, if_neg hsz]
  · rfl
  · exact at'_of_ge_size p (by omega)

theorem resize_size (p : polynom T) (sz : ℕ) : (p.resize sz).size = sz := by
  unfold resize
  split_ifs with h
  · exact listResize_length p.c sz
  · show p.size = sz
    omega

/-- `reserve` never changes any coefficient value. -/
theorem reserve_at' (p : polynom T) (sz i : ℕ) :
    (p.reserve sz).at' i = p.at' i := by
  unfold reserve
  split_ifs with h
  · show (listResize p.c sz).getD i 0 = p.at' i
    rw [listResize_getD]
    split_ifs with hi
    · rfl
    · exact (at'_of_ge_size p (by omega)).symm
  · rfl

theorem reserve_size (p : polynom T) (sz : ℕ) :
    (p.reserve sz).size = max sz p.size := by
  unfold reserve
  split_ifs with h
  · rw [show (polynom.mk (listResize p.c sz)).size = (listResize p.c sz).length
      from rfl, listResize_length]
    omega
  · show p.size = _
    omega

theorem setC_size (p : polynom T) (i : ℕ) (v : T) :
    (p.setC i v).size = max (i + 1) p.size := by
  show ((p.reserve (i + 1)).c.set i v).length = _
  rw [List.length_set]
  exact reserve_size p (i + 1)

/-- Writing through `operator[]` changes exactly one coefficient. -/
theorem setC_at' (p : polynom T) (i : ℕ) (v : T) (t : ℕ) :
    (p.setC i v).at' t = if t = i then v else p.at' t := by
  have hlen : i < (p.reserve (i + 1)).c.length := by
    have h := reserve_size p (i + 1)
    unfold size at h
    omega
  split_ifs with h
  · subst h
    show ((p.reserve (t + 1)).c.set t v).getD t 0 = v
    rw [List.getD_eq_getElem?_getD, List.getElem?_set_self (by omega),
      Option.getD_some]
  · show ((p.reserve (i + 1)).c.set i v).getD t 0 = p.at' t
    rw [List.getD_eq_getElem?_getD, List.getElem?_set_ne (by omega),
      ← List.getD_eq_getElem?_getD]
    exact reserve_at' p (i + 1) t

/-- `shrink_to_fit` preserves every coefficient value (the entries it
drops are above the degree, hence zero) and leaves `deg() + 1` slots. -/
theorem shrink_at' (p : polynom T) (i : ℕ) :
    (p.shrink_to_fit).at' i = p.at' i := by
  show (listResize p.c (p.deg + 1)).getD i 0 = p.at' i
  rw [listResize_getD]
  split_ifs with hi
  · rfl
  · exact (at'_of_deg_lt p (by omega)).symm

theorem shrink_size (p : polynom T) : (p.shrink_to_fit).size = p.deg + 1 :=
  listResize_length p.c (p.deg + 1)

theorem add_at' (p1 p2 : polynom T) (n : ℕ) :
    (add p1 p2).at' n = p1.at' n + p2.at' n := by
  unfold add
  rw [at'_mk_map]
  split_ifs with h
  · rfl
  · rw [at'_of_deg_lt p1 (by omega), at'_of_deg_lt p2 (by omega), add_zero]

theorem sub_at' (p1 p2 : polynom T) (n : ℕ) :
    (sub p1 p2).at' n = p1.at' n - p2.at' n := by
  unfold sub
  rw [at'_mk_map]
  split_ifs with h
  · rfl
  · rw [at'_of_deg_lt p1 (by omega), at'_of_deg_lt p2 (by omega), sub_zero]

theorem mulScalar_at' (p1 : polynom T) (s : T) (n : ℕ) :
    (mulScalar p1 s).at' n = p1.at' n * s := by
  unfold mulScalar
  rw [at'_mk_map]
  split_ifs with h
  · rfl
  · rw [at'_of_deg_lt p1 (by omega), zero_mul]

/-- `cut` at the degree is the identity on `at'` values. -/
theorem cut_at' (p : polynom T) (j : ℕ) : cut p.at' p.deg j = p.at' j := by
  by_cases h : j ≤ p.deg
  · exact cut_of_le _ h
  · rw [cut_of_gt _ (by omega), at'_of_deg_lt p (by omega)]

theorem replicate_at' (n i : ℕ) :
    (polynom.mk (List.replicate n (0 : T))).at' i = 0 := by
  rcases Nat.lt_or_ge i n with h | h
  · rw [at'_eq_getD, List.getD_eq_getElem?_getD, List.getElem?_replicate,
      if_pos h]
    rfl
  · exact at'_of_ge_size _ (by simpa [size] using h)

/-- A polynomial that stores no coefficients reads as zero everywhere. -/
theorem at'_of_size_zero (p : polynom T) (h : p.size = 0) (n : ℕ) :
    p.at' n = 0 :=
  at'_of_ge_size p (by omega)

theorem conv_zero_right (f : ℕ → T) (g : ℕ → T) (hg : ∀ m, g m = 0) (n : ℕ) :
    conv f g n = 0 := by
  unfold conv
  apply Finset.sum_eq_zero
  intro j _
  rw [hg (n - j), mul_zero]

theorem conv_zero_left (f : ℕ → T) (g : ℕ → T) (hf : ∀ m, f m = 0) (n : ℕ) :
    conv f g n = 0 := by
  unfold conv
  apply Finset.sum_eq_zero
  intro j _
  rw [hf j, zero_mul]

/-- The coefficients produced by `mul(pr, p1, p2, lr)` for an explicit
requested degree `lr = lrN ≥ 0`. -/
theorem mul_at'_trunc (p1 p2 : polynom T) (lrArg : ℤ) (lrN : ℕ)
    (h : lrArg = (lrN : ℤ)) (n : ℕ) :
    (mul p1 p2 lrArg).at' n =
      if n ≤ lrN then conv p1.at' p2.at' n else 0 := by
  subst h
  simp only [mul]
  rw [if_neg (show ¬ ((lrN : ℤ) < 0) by omega), Int.toNat_natCast]
  split_ifs with hz hn hn
  · rw [replicate_at']
    symm
    rcases hz with hz | hz
    · exact conv_zero_left _ _ (at'_of_size_zero p1 hz) n
    · exact conv_zero_right _ _ (at'_of_size_zero p2 hz) n
  · rw [replicate_at']
  · rw [at'_mk_map, if_pos (by omega),
      mulDispatch_eq_conv lrN p1.at' p1.deg p2.at' p2.deg n hn]
    exact conv_congr (fun j _ => cut_at' p1 j) (fun j _ => cut_at' p2 j)
  · rw [at'_mk_map, if_neg (by omega)]

/-- The coefficients produced by `mul(pr, p1, p2)` with the default
`lr = -1` (full product): every Cauchy coefficient. -/
theorem mul_at'_full (p1 p2 : polynom T) (lrArg : ℤ) (hneg : lrArg < 0)
    (n : ℕ) :
    (mul p1 p2 lrArg).at' n = conv p1.at' p2.at' n := by
  simp only [mul]
  rw [if_pos hneg, Int.toNat_natCast]
  split_ifs with hz
  · rw [replicate_at']
    symm
    rcases hz with hz | hz
    · exact conv_zero_left _ _ (at'_of_size_zero p1 hz) n
    · exact conv_zero_right _ _ (at'_of_size_zero p2 hz) n
  · rw [at'_mk_map]
    split_ifs with hn
    · rw [mulDispatch_eq_conv _ p1.at' p1.deg p2.at' p2.deg n (by omega)]
      exact conv_congr (fun j _ => cut_at' p1 j) (fun j _ => cut_at' p2 j)
    · symm
      apply conv_eq_zero_of_support (f := p1.at') (g := p2.at')
        (a := p1.deg) (b := p2.deg)
      · exact fun j hj => at'_of_deg_lt p1 hj
      · exact fun j hj => at'_of_deg_lt p2 hj
      · omega

theorem mul_size (p1 p2 : polynom T) (lrArg : ℤ) (lrN : ℕ)
    (h : (lrN : ℤ) = if lrArg < 0 then ((p1.deg + p2.deg : ℕ) : ℤ) else lrArg) :
    (mul p1 p2 lrArg).size = lrN + 1 := by
  simp only [mul]
  have htn : (if lrArg < 0 then ((p1.deg + p2.deg : ℕ) : ℤ) else lrArg).toNat
      = lrN := by
    rw [← h, Int.toNat_natCast]
  rw [htn]
  split_ifs with hz
  · show (List.replicate (lrN + 1) (0 : T)).length = lrN + 1
    rw [List.length_replicate]
  · exact size_mk_map _ _

end ContainerLemmas

end polynom

/-! ### Alias safety at the `polynom` level -/

namespace polynom

section AliasContainer

variable {T : Type} [CommRing T] [DecidableEq T]

/-- `mul(p1, p1, p2, lr)` produces the same coefficient list as
`mul(pr, p1, p2, lr)` with a distinct output object `pr`. -/
theorem mulSame1_eq (p1 p2 : polynom T) (lrArg : ℤ) :
    mulSame1 p1 p2 lrArg = mul p1 p2 lrArg := by
  simp only [mulSame1, mul]
  set L : ℕ := (if lrArg < 0 then ((p1.deg + p2.deg : ℕ) : ℤ) else lrArg).toNat with hL
  have hspec : ∀ i, i ≤ L →
      mulExecV MView.self (MView.pure p2.at') L p1.deg p2.deg
        ((p1.resize (L + 1)).at') i
      = conv (cut p1.at' p1.deg) (cut p2.at' p2.deg) i := by
    intro i hi
    rw [aliasIH_all (p1.deg + p2.deg + 1) MView.self (MView.pure p2.at') L
      p1.deg p2.deg ((p1.resize (L + 1)).at') (by omega) i, if_pos hi]
    refine conv_congr (fun j hj => ?_) (fun j hj => ?_)
    · by_cases hjl : j ≤ p1.deg
      · rw [cut_of_le _ hjl, cut_of_le _ hjl]
        show (p1.resize (L + 1)).at' j = p1.at' j
        rw [resize_at', if_pos (by omega)]
      · rw [cut_of_gt _ (by omega), cut_of_gt _ (by omega)]
    · by_cases hjl : j ≤ p2.deg
      · rw [cut_of_le _ hjl, cut_of_le _ hjl]
        rfl
      · rw [cut_of_gt _ (by omega), cut_of_gt _ (by omega)]
  by_cases hp2 : p2.size = 0
  · rw [if_pos hp2, if_pos (Or.inr hp2)]
  · rw [if_neg hp2]
    by_cases hp1 : p1.size = 0
    · rw [if_pos (Or.inl hp1)]
      refine congrArg polynom.mk ?_
      rw [List.eq_replicate_iff]
      refine ⟨by rw [List.length_map, List.length_range], fun b hb => ?_⟩
      rw [List.mem_map] at hb
      obtain ⟨i, hi, rfl⟩ := hb
      rw [List.mem_range] at hi
      rw [hspec i (by omega)]
      exact conv_zero_left _ _ (fun m => by
        by_cases hm : m ≤ p1.deg
        · rw [cut_of_le _ hm]
          exact at'_of_size_zero p1 hp1 m
        · exact cut_of_gt _ (by omega)) i
    · rw [if_neg (not_or.mpr ⟨hp1, hp2⟩)]
      refine congrArg polynom.mk ?_
      refine List.map_congr_left (fun i hi => ?_)
      rw [List.mem_range] at hi
      rw [hspec i (by omega),
        mulDispatch_eq_conv L p1.at' p1.deg p2.at' p2.deg i (by omega)]

/-- `mul(p2, p1, p2, lr)` produces the same coefficient list as
`mul(pr, p1, p2, lr)` with a distinct output object `pr`. -/
theorem mulSame2_eq (p1 p2 : polynom T) (lrArg : ℤ) :
    mulSame2 p1 p2 lrArg = mul p1 p2 lrArg := by
  simp only [mulSame2, mul]
  set L : ℕ := (if lrArg < 0 then ((p1.deg + p2.deg : ℕ) : ℤ) else lrArg).toNat with hL
  have hspec : ∀ i, i ≤ L →
      mulExecV (MView.pure p1.at') MView.self L p1.deg p2.deg
        ((p2.resize (L + 1)).at') i
      = conv (cut p1.at' p1.deg) (cut p2.at' p2.deg) i := by
    intro i hi
    rw [aliasIH_all (p1.deg + p2.deg + 1) (MView.pure p1.at') MView.self L
      p1.deg p2.deg ((p2.resize (L + 1)).at') (by omega) i, if_pos hi]
    refine conv_congr (fun j hj => ?_) (fun j hj => ?_)
    · by_cases hjl : j ≤ p1.deg
      · rw [cut_of_le _ hjl, cut_of_le _ hjl]
        rfl
      · rw [cut_of_gt _ (by omega), cut_of_gt _ (by omega)]
    · by_cases hjl : j ≤ p2.deg
      · rw [cut_of_le _ hjl, cut_of_le _ hjl]
        show (p2.resize (L + 1)).at' j = p2.at' j
        rw [resize_at', if_pos (by omega)]
      · rw [cut_of_gt _ (by omega), cut_of_gt _ (by omega)]
  by_cases hp1 : p1.size = 0
  · rw [if_pos hp1, if_pos (Or.inl hp1)]
  · rw [if_neg hp1]
    by_cases hp2 : p2.size = 0
    · rw [if_pos (Or.inr hp2)]
      refine congrArg polynom.mk ?_
      rw [List.eq_replicate_iff]
      refine ⟨by rw [List.length_map, List.length_range], fun b hb => ?_⟩
      rw [List.mem_map] at hb
      obtain ⟨i, hi, rfl⟩ := hb
      rw [List.mem_range] at hi
      rw [hspec i (by omega)]
      exact conv_zero_right _ _ (fun m => by
        by_cases hm : m ≤ p2.deg
        · rw [cut_of_le _ hm]
          exact at'_of_size_zero p2 hp2 m
        · exact cut_of_gt _ (by omega)) i
    · rw [if_neg (not_or.mpr ⟨hp1, hp2⟩)]
      refine congrArg polynom.mk ?_
      refine List.map_congr_left (fun i hi => ?_)
      rw [List.mem_range] at hi
      rw [hspec i (by omega),
        mulDispatch_eq_conv L p1.at' p1.deg p2.at' p2.deg i (by omega)]

/-- `mul(p, p, p, lr)` produces the same coefficient list as
`mul(pr, p, p, lr)` with a distinct output object `pr`. -/
theorem mulSameBoth_eq (p : polynom T) (lrArg : ℤ) :
    mulSameBoth p lrArg = mul p p lrArg := by
  simp only [mulSameBoth, mul]
  set L : ℕ := (if lrArg < 0 then ((p.deg + p.deg : ℕ) : ℤ) else lrArg).toNat with hL
  have hspec : ∀ i, i ≤ L →
      mulExecV MView.self MView.self L p.deg p.deg
        ((p.resize (L + 1)).at') i
      = conv (cut p.at' p.deg) (cut p.at' p.deg) i := by
    intro i hi
    rw [aliasIH_all (p.deg + p.deg + 1) MView.self MView.self L
      p.deg p.deg ((p.resize (L + 1)).at') (by omega) i, if_pos hi]
    refine conv_congr (fun j hj => ?_) (fun j hj => ?_) <;>
      · by_cases hjl : j ≤ p.deg
        · rw [cut_of_le _ hjl, cut_of_le _ hjl]
          show (p.resize (L + 1)).at' j = p.at' j
          rw [resize_at', if_pos (by omega)]
        · rw [cut_of_gt _ (by omega), cut_of_gt _ (by omega)]
  by_cases hp : p.size = 0
  · rw [if_pos (Or.inl hp)]
    refine congrArg polynom.mk ?_
    rw [List.eq_replicate_iff]
    refine ⟨by rw [List.length_map, List.length_range], fun b hb => ?_⟩
    rw [List.mem_map] at hb
    obtain ⟨i, hi, rfl⟩ := hb
    rw [List.mem_range] at hi
    rw [hspec i (by omega)]
    exact conv_zero_left _ _ (fun m => by
      by_cases hm : m ≤ p.deg
      · rw [cut_of_le _ hm]
        exact at'_of_size_zero p hp m
      · exact cut_of_gt _ (by omega)) i
  · rw [if_neg (not_or.mpr ⟨hp, hp⟩)]
    refine congrArg polynom.mk ?_
    refine List.map_congr_left (fun i hi => ?_)
    rw [List.mem_range] at hi
    rw [hspec i (by omega),
      mulDispatch_eq_conv L p.at' p.deg p.at' p.deg i (by omega)]

end AliasContainer

end polynom

/-! ## Correctness of `inverse`: the Newton iteration -/

namespace polynom

section InverseTheorems

variable {T : Type} [Field T] [DecidableEq T]

theorem conv_sub_right (f g₁ g₂ : ℕ → T) (n : ℕ) :
    conv f (fun j => g₁ j - g₂ j) n = conv f g₁ n - conv f g₂ n := by
  unfold conv
  rw [← Finset.sum_sub_distrib]
  apply Finset.sum_congr rfl
  intro j _
  ring

theorem conv_delta_right (f : ℕ → T) (n : ℕ) :
    conv f (fun j => if j = 0 then 1 else 0) n = f n := by
  rw [conv_comm, conv_delta_left]

/-- Reading `t.c.assign(c.begin(), c.begin() + min(m + 1, c.size()))`:
the copied prefix holds the original coefficients below the cutoff and
nothing above it. -/
theorem mk_take_at' (l : List T) (n i : ℕ) :
    (polynom.mk (l.take n)).at' i = if i < n then l.getD i 0 else 0 := by
  unfold at'
  rcases Nat.lt_or_ge i n with h | h
  · rw [if_pos h]
    rcases Nat.lt_or_ge i l.length with hl | hl
    · rw [List.getD_eq_getElem?_getD, List.getD_eq_getElem?_getD,
        List.getElem?_take_of_lt h]
    · rw [List.getD_eq_default _ _ (by rw [List.length_take]; omega),
        List.getD_eq_default _ _ hl]
  · rw [if_neg (by omega),
      List.getD_eq_default _ _ (by rw [List.length_take]; omega)]

/-- Reading `t.c.erase(t.c.begin(), t.c.begin() + k)`: dropping the
first `k` slots shifts every index down by `k`. -/
theorem mk_drop_at' (l : List T) (k i : ℕ) :
    (polynom.mk (l.drop k)).at' i = l.getD (k + i) 0 := by
  unfold at'
  rw [List.getD_eq_getElem?_getD, List.getD_eq_getElem?_getD, List.getElem?_drop]

theorem one_at' (t : ℕ) :
    (⟨[1]⟩ : polynom T).at' t = if t = 0 then 1 else 0 := by
  cases t with
  | zero => rfl
  | succ n =>
      rw [if_neg (by omega)]
      exact at'_of_ge_size _ (by simp [size])

/-- `div(pr, p1, s)` reads back as pointwise division (slots above the
degree hold zero, and `0 / s = 0`). -/
theorem divScalar_at' (p : polynom T) (s : T) (i : ℕ) :
    (divScalar p s).at' i = p.at' i / s := by
  unfold divScalar
  rw [at'_mk_map]
  split_ifs with h
  · rfl
  · rw [at'_of_deg_lt p (by omega), zero_div]

/-- The write-back loop `for (int i = m; i >= k; i--) r[i] = -t[i - k];`
overwrites exactly the slots `[k, k + n)` with the negated `t` values and
leaves everything else. -/
theorem invWriteLoop_at' (t3 : polynom T) (k : ℕ) :
    ∀ (n : ℕ) (r : polynom T) (i : ℕ),
      (invWriteLoop t3 k r n).at' i =
        if k ≤ i ∧ i < k + n then -(t3.at' (i - k)) else r.at' i := by
  intro n
  induction n with
  | zero =>
      intro r i
      rw [if_neg (by omega)]
      rfl
  | succ n ih =>
      intro r i
      show (invWriteLoop t3 k (r.setC (k + n) (-(t3.at' n))) n).at' i = _
      rw [ih]
      rcases Nat.lt_or_ge i (k + n) with h1 | h1
      · rcases le_or_lt k i with h2 | h2
        · rw [if_pos ⟨h2, h1⟩, if_pos ⟨h2, by omega⟩]
        · rw [if_neg (by omega), if_neg (by omega), setC_at', if_neg (by omega)]
      · rw [if_neg (by omega), setC_at']
        rcases eq_or_ne i (k + n) with h3 | h3
        · rw [if_pos h3, if_pos (by omega), h3, Nat.add_sub_cancel_left]
        · rw [if_neg h3, if_neg (by omega)]

/-- Characterization of the working buffer `t` right before the write-back
loop of one `inverse` iteration: after `mul(t, t, r, l + 1)`,
`t.c.erase(t.c.begin(), t.c.begin() + k)` and `mul(t, t, r, l - k)`, slot
`c ≤ m - k` of `t` holds `((p * r) >> k) * r` at `c`, i.e. the convolution
of the shifted error `a ↦ (p*r)[k+a]` with `r`. -/
theorem t3_spec (p r : polynom T) (l m k : ℕ) (hml : m ≤ l) (hkm : k ≤ m) :
    ∀ c ≤ m - k,
      (mul (polynom.mk ((mul (polynom.mk (p.c.take (min (m + 1) p.c.length))) r
          ((l : ℤ) + 1)).c.drop k)) r ((l : ℤ) - k)).at' c
        = conv (fun a => conv p.at' r.at' (k + a)) r.at' c := by
  intro c hc
  rw [mul_at'_trunc _ _ _ (l - k) (by omega) c, if_pos (by omega)]
  refine conv_congr ?_ (fun j _ => rfl)
  intro a ha
  show _ = conv p.at' r.at' (k + a)
  rw [mk_drop_at', ← at'_eq_getD,
    mul_at'_trunc _ _ _ (l + 1) (by omega) (k + a), if_pos (by omega)]
  refine conv_congr ?_ (fun j _ => rfl)
  intro b hb
  rw [mk_take_at']
  split_ifs with hbm
  · exact (at'_eq_getD p b).symm
  · refine (at'_of_ge_size p ?_).symm
    have hsz : p.size = p.c.length := rfl
    omega

/-- Correctness of one Newton iteration of `inverse`: if `r` inverts `p`
below the cutoff `k` and stores nothing at or above `k`, then after the
write-back loop `for (int i = m; i >= k; i--) r[i] = -t[i - k];` the
result inverts `p` below `m + 1`.  The computation: for `k ≤ s ≤ m` the
new coefficients turn `r` into `r - x^k·(E*r)` where `E = (p*r) >> k` is
the error, and `p·(r - x^k·E·r) = p·r - x^k·(p·r)·E ≡ δ` below `m + 1`
because `p·r ≡ δ` below `k` and `m - k < k`. -/
theorem newton_step (p r t3 : polynom T) (m k : ℕ) (hk1 : 1 ≤ k)
    (hkm : k ≤ m) (hmk : m - k < k)
    (ht3 : ∀ c ≤ m - k, t3.at' c =
      conv (fun a => conv p.at' r.at' (k + a)) r.at' c)
    (hcorr : ∀ s < k, conv p.at' r.at' s = if s = 0 then 1 else 0)
    (hsupp : ∀ i, k ≤ i → r.at' i = 0) :
    ∀ s < m + 1, conv p.at' (invWriteLoop t3 k r (m + 1 - k)).at' s
      = if s = 0 then 1 else 0 := by
  intro s hs
  set E : ℕ → T := fun a => conv p.at' r.at' (k + a) with hE
  rcases Nat.lt_or_ge s k with hsk | hsk
  · have hsame : conv p.at' (invWriteLoop t3 k r (m + 1 - k)).at' s
        = conv p.at' r.at' s := by
      refine conv_congr (fun j _ => rfl) ?_
      intro j hj
      rw [invWriteLoop_at', if_neg (by omega)]
    rw [hsame]
    exact hcorr s hsk
  · have hs0 : s ≠ 0 := by omega
    rw [if_neg hs0]
    have hrepl : conv p.at' (invWriteLoop t3 k r (m + 1 - k)).at' s =
        conv p.at'
          (fun j => r.at' j - (if k ≤ j then conv E r.at' (j - k) else 0)) s := by
      refine conv_congr (fun j _ => rfl) ?_
      intro j hj
      show (invWriteLoop t3 k r (m + 1 - k)).at' j
        = r.at' j - (if k ≤ j then conv E r.at' (j - k) else 0)
      rw [invWriteLoop_at']
      rcases Nat.lt_or_ge j k with h1 | h1
      · rw [if_neg (by omega), if_neg (by omega), sub_zero]
      · rw [if_pos ⟨h1, by omega⟩, if_pos h1, hsupp j h1, zero_sub]
        congr 1
        exact ht3 (j - k) (by omega)
    rw [hrepl, conv_sub_right]
    have h1 : conv p.at' r.at' s = E (s - k) := by
      rw [hE]
      show _ = conv p.at' r.at' (k + (s - k))
      congr 1
      omega
    have h2 : conv p.at' (fun j => if k ≤ j then conv E r.at' (j - k) else 0) s
        = E (s - k) := by
      rw [conv_shift_right p.at' (conv E r.at') k s, if_pos hsk]
      have hi : s - k < k := by omega
      calc conv p.at' (conv E r.at') (s - k)
          = conv (conv p.at' E) r.at' (s - k) := (conv_assoc _ _ _ _).symm
        _ = conv (conv E p.at') r.at' (s - k) := by
            refine conv_congr ?_ (fun j _ => rfl)
            intro j _
            exact conv_comm _ _ _
        _ = conv E (conv p.at' r.at') (s - k) := conv_assoc _ _ _ _
        _ = conv E (fun j => if j = 0 then 1 else 0) (s - k) := by
            refine conv_congr (fun j _ => rfl) ?_
            intro j hj
            exact hcorr j (by omega)
        _ = E (s - k) := conv_delta_right _ _
    rw [h1, h2, sub_self]

/-- One-step unfolding of the Newton doubling loop. -/
theorem inverse_loop_eq (p : polynom T) (L : ℕ) (r : polynom T) (j : ℕ) :
    inverse_loop p L r j =
      if 2 ^ j < L * 2 then
        inverse_loop p L
          (invWriteLoop
            (mul (polynom.mk ((mul (polynom.mk (p.c.take
                (min (min (L - 1) (2 ^ j) + 1) p.c.length))) r
                (((2 ^ j : ℕ) : ℤ) + 1)).c.drop (2 ^ j / 2 + 1)))
              r (((2 ^ j : ℕ) : ℤ) - ((2 ^ j / 2 + 1 : ℕ) : ℤ)))
            (2 ^ j / 2 + 1) r (min (L - 1) (2 ^ j) + 1 - (2 ^ j / 2 + 1)))
          (j + 1)
      else r := by
  rw [inverse_loop]

/-- Correctness of the Newton doubling loop of `inverse`, by induction on
the remaining fuel `L*2 - 2^j` (the loop's termination measure):
entering iteration `j` with `r` correct below `min(L-1, 2^j/2) + 1` and
zero from there on, the final result inverts `p` below `L`. -/
theorem inverse_loop_correct (p : polynom T) (L : ℕ) :
    ∀ (fuel j : ℕ) (r : polynom T), L * 2 - 2 ^ j ≤ fuel →
      (∀ s < min (L - 1) (2 ^ j / 2) + 1,
        conv p.at' r.at' s = if s = 0 then 1 else 0) →
      (∀ i, min (L - 1) (2 ^ j / 2) + 1 ≤ i → r.at' i = 0) →
      ∀ t < L, conv p.at' (inverse_loop p L r j).at' t
        = if t = 0 then 1 else 0 := by
  intro fuel
  induction fuel with
  | zero =>
      intro j r hfuel hcorr hsupp t ht
      have hl2 : 2 ^ j / 2 ≥ L := by omega
      rw [inverse_loop_eq, if_neg (by omega)]
      exact hcorr t (by omega)
  | succ fuel ih =>
      intro j r hfuel hcorr hsupp t ht
      have hl1 : (1 : ℕ) ≤ 2 ^ j := Nat.one_le_two_pow
      have hps : 2 ^ (j + 1) = 2 ^ j * 2 := pow_succ 2 j
      have hpow2 : 2 ^ (j + 1) / 2 = 2 ^ j := by omega
      by_cases hcond : 2 ^ j < L * 2
      · rw [inverse_loop_eq, if_pos hcond]
        refine ih (j + 1) _ (by omega) ?_ ?_ t ht
        · rw [hpow2]
          by_cases hkm : 2 ^ j / 2 + 1 ≤ min (L - 1) (2 ^ j)
          · exact newton_step p r _ (min (L - 1) (2 ^ j)) (2 ^ j / 2 + 1)
              (by omega) hkm (by omega)
              (t3_spec p r (2 ^ j) (min (L - 1) (2 ^ j)) (2 ^ j / 2 + 1)
                (by omega) hkm)
              (fun s hs => hcorr s (by omega)) (fun i hi => hsupp i (by omega))
          · intro s hs
            refine Eq.trans (conv_congr (fun j _ => rfl) ?_) (hcorr s (by omega))
            intro i hi
            rw [invWriteLoop_at', if_neg (by omega)]
        · rw [hpow2]
          intro i hi
          rw [invWriteLoop_at', if_neg (by omega)]
          exact hsupp i (by omega)
      · rw [inverse_loop_eq, if_neg hcond]
        exact hcorr t (by omega)

/-- Correctness of the Newton loop from its start `r = {1}`, `l = 1`,
for a series with constant term 1. -/
theorem inverse_core_correct (p : polynom T) (L : ℕ) (hp0 : p.at' 0 = 1) :
    ∀ t < L, conv p.at' (inverse_core p L).at' t = if t = 0 then 1 else 0 := by
  unfold inverse_core
  have h20 : (2 : ℕ) ^ 0 = 1 := pow_zero 2
  apply inverse_loop_correct p L (L * 2) 0 ⟨[1]⟩ (by omega)
  · intro s hs
    have hs0 : s = 0 := by omega
    subst hs0
    rw [if_pos rfl]
    simp [conv, hp0, one_at']
  · intro i hi
    rw [one_at', if_neg (by omega)]

/-- Correctness of `inverse` for any invertible constant term: the
normalisation branch `return (*this / c0).inverse(L) / c0;` reduces to
the `inverse_core` case because `(p/c0)` has constant term 1 and
`p * (q/c0) = (p/c0) * q`. -/
theorem inverse_correct (p : polynom T) (L : ℕ) (hp0 : p.at' 0 ≠ 0) :
    ∀ t < L, conv p.at' (p.inverse L).at' t = if t = 0 then 1 else 0 := by
  intro t ht
  unfold inverse
  rw [if_neg hp0]
  by_cases h1 : p.at' 0 = 1
  · rw [if_neg (not_not_intro h1)]
    exact inverse_core_correct p L h1 t ht
  · rw [if_pos h1]
    have hq0 : (divScalar p (p.at' 0)).at' 0 = 1 := by
      rw [divScalar_at', div_self hp0]
    have hcore := inverse_core_correct (divScalar p (p.at' 0)) L hq0 t ht
    calc conv p.at'
          (divScalar (inverse_core (divScalar p (p.at' 0)) L) (p.at' 0)).at' t
        = conv (divScalar p (p.at' 0)).at'
            (inverse_core (divScalar p (p.at' 0)) L).at' t := by
          unfold conv
          apply Finset.sum_congr rfl
          intro j _
          rw [divScalar_at', divScalar_at']
          ring
      _ = if t = 0 then 1 else 0 := hcore

end InverseTheorems

section DivisionTheorems

variable {T : Type} [Field T] [DecidableEq T]

/-- Every slot below the index found by the `lowest()` scan is zero. -/
theorem lowLoop_zero (c : List T) :
    ∀ (fuel i : ℕ), c.length - i ≤ fuel →
      ∀ j, i ≤ j → j < lowLoop c i → c.getD j 0 = 0 := by
  intro fuel
  induction fuel with
  | zero =>
      intro i hfuel j hij hjl
      rw [lowLoop, dif_neg (by omega)] at hjl
      omega
  | succ fuel ih =>
      intro i hfuel j hij hjl
      rw [lowLoop] at hjl
      by_cases hi : i < c.length
      · rw [dif_pos hi] at hjl
        by_cases hci : c.getD i 0 ≠ 0
        · rw [if_pos hci] at hjl
          omega
        · rw [if_neg hci] at hjl
          rcases eq_or_lt_of_le hij with h | h
          · rw [← h]
            exact not_not.mp hci
          · exact ih (i + 1) (by omega) j (by omega) hjl
      · rw [dif_neg hi] at hjl
        omega

/-- Coefficients of an `is_power()` polynomial: a single 1 at the degree. -/
theorem isPow_at' (p : polynom T) (h : p.isPow) (j : ℕ) :
    p.at' j = if j = p.deg then 1 else 0 := by
  obtain ⟨hlow, hlead⟩ := h
  rcases lt_trichotomy j p.deg with hj | hj | hj
  · rw [if_neg (by omega)]
    have := lowLoop_zero p.c (p.c.length) 0 (by omega) j (by omega)
      (by rw [show lowLoop p.c 0 = p.lowest from rfl, hlow]; exact hj)
    exact this
  · rw [if_pos hj, hj]
    exact hlead
  · rw [if_neg (by omega)]
    exact at'_of_deg_lt p hj

/-- `reverse()` reads back as the index-reflected coefficients up to the
degree (the tail of stored zeros above the degree is kept in place). -/
theorem reverse_at' (p : polynom T) (u : ℕ) :
    p.reverse.at' u = if u ≤ p.deg then p.at' (p.deg - u) else 0 := by
  unfold reverse
  by_cases hc : 0 < p.c.length
  · rw [if_pos hc]
    have hdeg : p.deg + 1 ≤ p.c.length := by
      have h1 := deg_le_size p
      have h2 : p.size = p.c.length := rfl
      omega
    have hlen : ((p.c.take (p.deg + 1)).reverse).length = p.deg + 1 := by
      rw [List.length_reverse, List.length_take]
      omega
    by_cases hu : u ≤ p.deg
    · rw [if_pos hu]
      show ((p.c.take (p.deg + 1)).reverse ++ p.c.drop (p.deg + 1)).getD u 0
        = p.at' (p.deg - u)
      rw [List.getD_append _ _ _ _ (by omega), List.getD_eq_getElem?_getD,
        List.getElem?_reverse (by rw [List.length_take]; omega), List.length_take]
      have hmin : min (p.deg + 1) p.c.length = p.deg + 1 := by omega
      rw [hmin, List.getElem?_take_of_lt (by omega),
        ← List.getD_eq_getElem?_getD]
      show p.c.getD (p.deg + 1 - 1 - u) 0 = p.at' (p.deg - u)
      have : p.deg + 1 - 1 - u = p.deg - u := by omega
      rw [this]
      rfl
    · rw [if_neg hu]
      show ((p.c.take (p.deg + 1)).reverse ++ p.c.drop (p.deg + 1)).getD u 0
        = (0 : T)
      rw [List.getD_append_right _ _ _ _ (by omega), hlen,
        List.getD_eq_getElem?_getD, List.getElem?_drop,
        ← List.getD_eq_getElem?_getD]
      have : p.deg + 1 + (u - (p.deg + 1)) = u := by omega
      rw [this]
      exact at'_of_deg_lt p (by omega)
  · rw [if_neg hc]
    have hz : ∀ n, p.at' n = 0 := fun n =>
      at'_of_size_zero p (by show p.c.length = 0; omega) n
    rw [hz u]
    split_ifs
    · rw [hz]
    · rfl

/-- Convolving with a single scaled delta at position `c`. -/
theorem conv_single_left (s : T) (c : ℕ) (g : ℕ → T) (t : ℕ) :
    conv (fun j => if j = c then s else 0) g t =
      if c ≤ t then s * g (t - c) else 0 := by
  unfold conv
  beta_reduce
  rcases le_or_lt c t with h | h
  · rw [if_pos h, Finset.sum_eq_single c]
    · rw [if_pos rfl]
    · intro j _ hj
      rw [if_neg hj, zero_mul]
    · intro hc
      exact absurd (Finset.mem_range.mpr (by omega)) hc
  · rw [if_neg (by omega)]
    apply Finset.sum_eq_zero
    intro j hj
    have := Finset.mem_range.mp hj
    rw [if_neg (show ¬ j = c by omega), zero_mul]

/-- Reversal identity for convolutions of bounded-support sequences:
coefficient `t` of `f*g` is coefficient `df + dg - t` of the product of
the reflected sequences. -/
theorem conv_rev (f g : ℕ → T) (df dg : ℕ)
    (hf : ∀ a, df < a → f a = 0) (hg : ∀ b, dg < b → g b = 0)
    (t : ℕ) (ht : t ≤ df + dg) :
    conv f g t =
      conv (fun a => if a ≤ df then f (df - a) else 0)
        (fun b => if b ≤ dg then g (dg - b) else 0) (df + dg - t) := by
  have hL : conv f g t = ∑ a ∈ Finset.range (df + 1),
      (if a ≤ t then f a * g (t - a) else 0) := by
    unfold conv
    beta_reduce
    rcases le_or_lt (t + 1) (df + 1) with h | h
    · calc ∑ j ∈ Finset.range (t + 1), f j * g (t - j)
          = ∑ j ∈ Finset.range (t + 1), (if j ≤ t then f j * g (t - j) else 0) :=
            Finset.sum_congr rfl (fun a ha =>
              (if_pos (by have := Finset.mem_range.mp ha; omega)).symm)
        _ = ∑ a ∈ Finset.range (df + 1), (if a ≤ t then f a * g (t - a) else 0) :=
            Finset.sum_subset (Finset.range_subset.mpr h)
              (fun a _ hna => if_neg (by
                have : ¬ a < t + 1 := fun hlt => hna (Finset.mem_range.mpr hlt)
                omega))
    · calc ∑ j ∈ Finset.range (t + 1), f j * g (t - j)
          = ∑ j ∈ Finset.range (df + 1), f j * g (t - j) :=
            (Finset.sum_subset
              (Finset.range_subset.mpr (by omega : df + 1 ≤ t + 1))
              (fun a _ hna => by
                have : ¬ a < df + 1 := fun hlt => hna (Finset.mem_range.mpr hlt)
                rw [hf a (by omega), zero_mul])).symm
        _ = ∑ a ∈ Finset.range (df + 1), (if a ≤ t then f a * g (t - a) else 0) :=
            Finset.sum_congr rfl (fun a ha =>
              (if_pos (by have := Finset.mem_range.mp ha; omega)).symm)
  have hR : conv (fun a => if a ≤ df then f (df - a) else 0)
      (fun b => if b ≤ dg then g (dg - b) else 0) (df + dg - t)
      = ∑ a ∈ Finset.range (df + 1),
        (if a ≤ df + dg - t then
          (if a ≤ df then f (df - a) else 0) *
            (if df + dg - t - a ≤ dg then g (dg - (df + dg - t - a)) else 0)
          else 0) := by
    unfold conv
    beta_reduce
    rcases le_or_lt (df + dg - t + 1) (df + 1) with h | h
    · calc ∑ j ∈ Finset.range (df + dg - t + 1),
            (if j ≤ df then f (df - j) else 0) *
              (if df + dg - t - j ≤ dg then g (dg - (df + dg - t - j)) else 0)
          = ∑ j ∈ Finset.range (df + dg - t + 1),
            (if j ≤ df + dg - t then
              (if j ≤ df then f (df - j) else 0) *
                (if df + dg - t - j ≤ dg then g (dg - (df + dg - t - j)) else 0)
              else 0) :=
            Finset.sum_congr rfl (fun a ha =>
              (if_pos (by have := Finset.mem_range.mp ha; omega)).symm)
        _ = _ :=
            Finset.sum_subset (Finset.range_subset.mpr h)
              (fun a _ hna => if_neg (by
                have : ¬ a < df + dg - t + 1 := fun hlt =>
                  hna (Finset.mem_range.mpr hlt)
                omega))
    · calc ∑ j ∈ Finset.range (df + dg - t + 1),
            (if j ≤ df then f (df - j) else 0) *
              (if df + dg - t - j ≤ dg then g (dg - (df + dg - t - j)) else 0)
          = ∑ j ∈ Finset.range (df + 1),
            (if j ≤ df then f (df - j) else 0) *
              (if df + dg - t - j ≤ dg then g (dg - (df + dg - t - j)) else 0) :=
            (Finset.sum_subset
              (Finset.range_subset.mpr (by omega : df + 1 ≤ df + dg - t + 1))
              (fun a _ hna => by
                have : ¬ a < df + 1 := fun hlt => hna (Finset.mem_range.mpr hlt)
                rw [if_neg (by omega), zero_mul])).symm
        _ = _ :=
            Finset.sum_congr rfl (fun a ha =>
              (if_pos (by have := Finset.mem_range.mp ha; omega)).symm)
  rw [hL, hR, ← Finset.sum_range_reflect]
  apply Finset.sum_congr rfl
  intro j hj
  beta_reduce
  have hjd : j ≤ df := by have := Finset.mem_range.mp hj; omega
  have hidx : df + 1 - 1 - j = df - j := by omega
  rw [hidx]
  by_cases h1 : df - j ≤ t
  · rw [if_pos h1]
    by_cases h2 : j ≤ df + dg - t
    · rw [if_pos h2, if_pos hjd, if_pos (by omega)]
      have : t - (df - j) = dg - (df + dg - t - j) := by omega
      rw [this]
    · rw [if_neg h2, hg (t - (df - j)) (by omega), mul_zero]
  · rw [if_neg h1, if_pos (by omega), if_pos hjd, if_neg (by omega), mul_zero]

/-- Effect of the inner elimination loop
`for (int j = 1; j <= l2; j++) pr[i - j] = pr[i - j] - s * p2[l2 - j];`
started at `j`: slots `i - l2 .. i - j` receive the subtraction, all
others are untouched. -/
theorem qrSubLoop_at' (p2 : polynom T) (l2 : ℕ) (s : T) (i : ℕ) (hi : l2 ≤ i) :
    ∀ (fuel j : ℕ) (pr : polynom T) (t : ℕ), l2 + 1 - j ≤ fuel → 1 ≤ j →
      (qrSubLoop p2 l2 s i pr j).at' t =
        if i - l2 ≤ t ∧ t ≤ i - j ∧ j ≤ l2 then
          pr.at' t - s * p2.at' (l2 - (i - t))
        else pr.at' t := by
  intro fuel
  induction fuel with
  | zero =>
      intro j pr t hfuel hj
      rw [qrSubLoop, dif_neg (by omega), if_neg (by omega)]
  | succ fuel ih =>
      intro j pr t hfuel hj
      rw [qrSubLoop]
      by_cases hjl : j ≤ l2
      · rw [dif_pos hjl, ih (j + 1) _ t (by omega) (by omega), setC_at']
        by_cases hC : i - l2 ≤ t ∧ t ≤ i - (j + 1) ∧ j + 1 ≤ l2
        · rw [if_pos hC]
          by_cases ht : t = i - j
          · exfalso
            omega
          · rw [if_neg ht, if_pos (show i - l2 ≤ t ∧ t ≤ i - j ∧ j ≤ l2 by omega)]
        · rw [if_neg hC]
          by_cases ht : t = i - j
          · rw [if_pos ht,
              if_pos (show i - l2 ≤ t ∧ t ≤ i - j ∧ j ≤ l2 by omega), ht]
            have h2 : i - (i - j) = j := by omega
            rw [h2]
          · rw [if_neg ht,
              if_neg (show ¬ (i - l2 ≤ t ∧ t ≤ i - j ∧ j ≤ l2) by omega)]
      · rw [dif_neg hjl, if_neg (by omega)]

/-- Effect of one iteration of the outer `quot_rem_long` loop at row `i`:
slot `i` receives the quotient coefficient `pr[i] / p2[l2]`, slots
`i - l2 .. i - 1` receive the elimination subtraction (a no-op when the
quotient coefficient is zero, which is exactly the `continue` shortcut),
everything else is untouched. -/
theorem qrBody_at' (p2 : polynom T) (l2 : ℕ) (pr : polynom T) (i : ℕ)
    (hi : l2 ≤ i) (t : ℕ) :
    (qrBody p2 l2 pr i).at' t =
      if t = i then pr.at' i / p2.at' l2
      else if i - l2 ≤ t ∧ t < i then
        pr.at' t - (pr.at' i / p2.at' l2) * p2.at' (l2 - (i - t))
      else pr.at' t := by
  simp only [qrBody]
  by_cases hs : pr.at' i / p2.at' l2 = 0
  · rw [if_pos hs, setC_at']
    by_cases ht : t = i
    · rw [if_pos ht, if_pos ht]
    · rw [if_neg ht, if_neg ht]
      by_cases hr : i - l2 ≤ t ∧ t < i
      · rw [if_pos hr, hs, zero_mul, sub_zero]
      · rw [if_neg hr]
  · rw [if_neg hs,
      qrSubLoop_at' p2 l2 _ i hi (l2 + 1) 1 _ t (by omega) (by omega), setC_at']
    by_cases ht : t = i
    · rw [if_neg (show ¬ (i - l2 ≤ t ∧ t ≤ i - 1 ∧ 1 ≤ l2) by omega),
        if_pos ht, if_pos ht]
    · by_cases hr : i - l2 ≤ t ∧ t < i
      · rw [if_pos (show i - l2 ≤ t ∧ t ≤ i - 1 ∧ 1 ≤ l2 by omega),
          if_neg ht, if_neg ht, if_pos hr]
      · rw [if_neg (show ¬ (i - l2 ≤ t ∧ t ≤ i - 1 ∧ 1 ≤ l2) by omega),
          if_neg ht, if_neg ht, if_neg hr]

/-- The outer loop never touches slots above its starting row. -/
theorem qrLoop_at'_high (p2 : polynom T) (l2 : ℕ) :
    ∀ (n : ℕ) (B : polynom T) (u : ℕ), l2 + n < u →
      (qrLoop p2 l2 B n).at' u = B.at' u := by
  intro n
  induction n with
  | zero =>
      intro B u hu
      show (qrBody p2 l2 B l2).at' u = B.at' u
      rw [qrBody_at' p2 l2 B l2 (le_refl l2) u, if_neg (by omega),
        if_neg (by omega)]
  | succ n ih =>
      intro B u hu
      show (qrLoop p2 l2 (qrBody p2 l2 B (l2 + (n + 1))) n).at' u = B.at' u
      rw [ih _ u (by omega), qrBody_at' p2 l2 B (l2 + (n + 1)) (by omega) u,
        if_neg (by omega), if_neg (by omega)]

/-- One row of the long-division loop preserves the combined-buffer
invariant: decided quotient slots (at or above the row) convolved with
`p2` plus the still-unprocessed low part reconstruct `p1`. -/
theorem qrBody_invariant (p1 p2 : polynom T) (l2 i : ℕ) (hdeg : l2 = p2.deg)
    (hlead : p2.at' l2 ≠ 0) (hi : l2 ≤ i) (B : polynom T)
    (hB : ∀ t, p1.at' t =
      conv (fun j => if i + 1 ≤ j + l2 then B.at' (j + l2) else 0) p2.at' t
        + (if t < i + 1 then B.at' t else 0)) :
    ∀ t, p1.at' t =
      conv (fun j => if i ≤ j + l2 then (qrBody p2 l2 B i).at' (j + l2) else 0)
          p2.at' t
        + (if t < i then (qrBody p2 l2 B i).at' t else 0) := by
  intro t
  have hQH : ∀ j, (if i ≤ j + l2 then (qrBody p2 l2 B i).at' (j + l2) else 0)
      = (if i + 1 ≤ j + l2 then B.at' (j + l2) else 0)
        + (if j = i - l2 then B.at' i / p2.at' l2 else 0) := by
    intro j
    rcases lt_trichotomy (j + l2) i with h | h | h
    · rw [if_neg (by omega), if_neg (by omega), if_neg (by omega), add_zero]
    · rw [if_pos (by omega), if_neg (by omega), if_pos (by omega), zero_add,
        qrBody_at' p2 l2 B i hi, if_pos (by omega)]
    · rw [if_pos (by omega), if_pos (by omega), if_neg (by omega), add_zero,
        qrBody_at' p2 l2 B i hi, if_neg (by omega), if_neg (by omega)]
  have hconv :
      conv (fun j => if i ≤ j + l2 then (qrBody p2 l2 B i).at' (j + l2) else 0)
          p2.at' t
        = conv (fun j => if i + 1 ≤ j + l2 then B.at' (j + l2) else 0) p2.at' t
          + (if i - l2 ≤ t then
              (B.at' i / p2.at' l2) * p2.at' (t - (i - l2)) else 0) := by
    calc conv (fun j =>
            if i ≤ j + l2 then (qrBody p2 l2 B i).at' (j + l2) else 0) p2.at' t
        = conv (fun j =>
            (if i + 1 ≤ j + l2 then B.at' (j + l2) else 0)
              + (if j = i - l2 then B.at' i / p2.at' l2 else 0)) p2.at' t :=
          conv_congr (fun j _ => hQH j) (fun j _ => rfl)
      _ = conv (fun j => if i + 1 ≤ j + l2 then B.at' (j + l2) else 0) p2.at' t
            + conv (fun j => if j = i - l2 then B.at' i / p2.at' l2 else 0)
                p2.at' t :=
          conv_add_left _ _ _ _
      _ = _ := by rw [conv_single_left]
  have hfin :
      (if i - l2 ≤ t then (B.at' i / p2.at' l2) * p2.at' (t - (i - l2)) else 0)
        + (if t < i then (qrBody p2 l2 B i).at' t else 0)
      = (if t < i + 1 then B.at' t else 0) := by
    rcases lt_trichotomy t i with htlt | hteq | htgt
    · rcases le_or_lt (i - l2) t with h1 | h1
      · have hidx : t - (i - l2) = l2 - (i - t) := by omega
        rw [if_pos h1, if_pos htlt, qrBody_at' p2 l2 B i hi,
          if_neg (by omega), if_pos (by omega), if_pos (by omega), hidx]
        ring
      · rw [if_neg (by omega), if_pos htlt, qrBody_at' p2 l2 B i hi,
          if_neg (by omega), if_neg (by omega), if_pos (by omega), zero_add]
    · subst hteq
      have hidx : t - (t - l2) = l2 := by omega
      rw [if_pos (by omega), if_neg (by omega), hidx,
        div_mul_cancel₀ _ hlead, if_pos (by omega), add_zero]
    · rw [if_pos (show i - l2 ≤ t by omega), if_neg (show ¬ t < i by omega),
        if_neg (show ¬ t < i + 1 by omega), add_zero,
        at'_of_deg_lt p2 (show p2.deg < t - (i - l2) by omega), mul_zero]
  rw [hconv, add_assoc, hfin]
  exact hB t

/-- The long-division outer loop turns the entry invariant (nothing
decided, `B = p1`) into the final combined-buffer layout. -/
theorem qrLoop_invariant (p1 p2 : polynom T) (l2 : ℕ) (hdeg : l2 = p2.deg)
    (hlead : p2.at' l2 ≠ 0) :
    ∀ (n : ℕ) (B : polynom T),
      (∀ t, p1.at' t =
        conv (fun j => if l2 + n + 1 ≤ j + l2 then B.at' (j + l2) else 0)
            p2.at' t
          + (if t < l2 + n + 1 then B.at' t else 0)) →
      ∀ t, p1.at' t =
        conv (fun j => (qrLoop p2 l2 B n).at' (j + l2)) p2.at' t
          + (if t < l2 then (qrLoop p2 l2 B n).at' t else 0) := by
  intro n
  induction n with
  | zero =>
      intro B hB t
      have hstep := qrBody_invariant p1 p2 l2 l2 hdeg hlead (le_refl l2) B hB t
      show p1.at' t =
        conv (fun j => (qrBody p2 l2 B l2).at' (j + l2)) p2.at' t
          + (if t < l2 then (qrBody p2 l2 B l2).at' t else 0)
      rw [show conv (fun j => (qrBody p2 l2 B l2).at' (j + l2)) p2.at' t
          = conv (fun j =>
              if l2 ≤ j + l2 then (qrBody p2 l2 B l2).at' (j + l2) else 0)
              p2.at' t from
        conv_congr (fun j _ => (if_pos (by omega)).symm) (fun j _ => rfl)]
      exact hstep
  | succ n ih =>
      intro B hB t
      have hstep := qrBody_invariant p1 p2 l2 (l2 + (n + 1)) hdeg hlead
        (by omega) B hB
      show p1.at' t =
        conv (fun j =>
            (qrLoop p2 l2 (qrBody p2 l2 B (l2 + (n + 1))) n).at' (j + l2))
          p2.at' t
          + (if t < l2 then
              (qrLoop p2 l2 (qrBody p2 l2 B (l2 + (n + 1))) n).at' t else 0)
      exact ih (qrBody p2 l2 B (l2 + (n + 1))) hstep t

/-- Layout identity in the early-return case `p2.is_power()`: with
`p2 = x^l2` the unchanged buffer `p1` already holds quotient slots
`p1[i+l2]` and remainder slots `p1[0..l2)`. -/
theorem layout_of_isPow (p1 p2 : polynom T) (hPow : p2.isPow) :
    ∀ t, p1.at' t =
      conv (fun j => p1.at' (j + p2.deg)) p2.at' t
        + (if t < p2.deg then p1.at' t else 0) := by
  intro t
  have hp2 : ∀ b, p2.at' b = if b = p2.deg then 1 else 0 := isPow_at' p2 hPow
  have h1 : conv (fun j => p1.at' (j + p2.deg)) p2.at' t
      = (if p2.deg ≤ t then 1 * p1.at' (t - p2.deg + p2.deg) else 0) := by
    calc conv (fun j => p1.at' (j + p2.deg)) p2.at' t
        = conv p2.at' (fun j => p1.at' (j + p2.deg)) t := conv_comm _ _ _
      _ = conv (fun b => if b = p2.deg then (1 : T) else 0)
            (fun j => p1.at' (j + p2.deg)) t :=
          conv_congr (fun j _ => hp2 j) (fun j _ => rfl)
      _ = _ := conv_single_left 1 p2.deg _ t
  rw [h1]
  by_cases ht : p2.deg ≤ t
  · rw [if_pos ht, if_neg (by omega), one_mul, add_zero]
    congr 1
    omega
  · rw [if_neg ht, if_pos (by omega), zero_add]

/-- Combined-buffer layout after `quot_rem_long`. -/
theorem quot_rem_long_layout (p1 p2 : polynom T) (h21 : p2.deg ≤ p1.deg)
    (hlead : p2.at' p2.deg ≠ 0) :
    ∀ t, p1.at' t =
      conv (fun j => (quot_rem_long p1 p2).at' (j + p2.deg)) p2.at' t
        + (if t < p2.deg then (quot_rem_long p1 p2).at' t else 0) := by
  intro t
  simp only [quot_rem_long]
  by_cases hPow : p2.isPow
  · rw [if_pos (Or.inr hPow)]
    exact layout_of_isPow p1 p2 hPow t
  · rw [if_neg (not_or.mpr ⟨by omega, hPow⟩)]
    apply qrLoop_invariant p1 p2 p2.deg rfl hlead (p1.deg - p2.deg) p1 ?_ t
    intro u
    have hzero : ∀ j, (if p2.deg + (p1.deg - p2.deg) + 1 ≤ j + p2.deg
        then p1.at' (j + p2.deg) else 0) = 0 := by
      intro j
      split_ifs with h
      · exact at'_of_deg_lt p1 (by omega)
      · rfl
    rw [conv_zero_left _ _ hzero u, zero_add]
    by_cases hu : u < p2.deg + (p1.deg - p2.deg) + 1
    · rw [if_pos hu]
    · rw [if_neg hu]
      exact at'_of_deg_lt p1 (by omega)

/-- `quot_rem_long` never writes above `deg p1`. -/
theorem quot_rem_long_high (p1 p2 : polynom T) (u : ℕ) (hu : p1.deg < u) :
    (quot_rem_long p1 p2).at' u = 0 := by
  simp only [quot_rem_long]
  split_ifs with h
  · exact at'_of_deg_lt p1 hu
  · rcases le_or_lt p2.deg p1.deg with h21 | h21
    · rw [qrLoop_at'_high p2 p2.deg (p1.deg - p2.deg) p1 u (by omega)]
      exact at'_of_deg_lt p1 hu
    · exact absurd (Or.inl (by omega : (p1.deg : ℤ) - (p2.deg : ℤ) < 0)) h

/-- Reading `q.c.insert(q.c.begin(), l2, ZERO)`: prepending `l2` zeros
shifts every index up by `l2`. -/
theorem mk_replicate_append_at' (n : ℕ) (q : polynom T) (t : ℕ) :
    (polynom.mk (List.replicate n (0 : T) ++ q.c)).at' t
      = if t < n then 0 else q.at' (t - n) := by
  unfold at'
  rcases lt_or_ge t n with h | h
  · rw [if_pos h,
      List.getD_append _ _ _ _ (by rw [List.length_replicate]; omega),
      List.getD_eq_getElem?_getD, List.getElem?_replicate, if_pos h]
    rfl
  · rw [if_neg (by omega),
      List.getD_append_right _ _ _ _ (by rw [List.length_replicate]; omega),
      List.length_replicate]

/-- Reading `std::reverse(q.c.begin(), q.c.begin() + lq + 1)` on a buffer
of exactly `lq + 1` coefficients: index reflection. -/
theorem mk_revtake_at' (q0 : polynom T) (lq : ℕ) (hlen : q0.c.length = lq + 1)
    (j : ℕ) :
    (polynom.mk ((q0.c.take (lq + 1)).reverse ++ q0.c.drop (lq + 1))).at' j
      = if j ≤ lq then q0.at' (lq - j) else 0 := by
  unfold at'
  have htake : q0.c.take (lq + 1) = q0.c := List.take_of_length_le (by omega)
  have hdrop : q0.c.drop (lq + 1) = [] := List.drop_eq_nil_of_le (by omega)
  rw [htake, hdrop, List.append_nil]
  rcases le_or_lt j lq with h | h
  · rw [if_pos h, List.getD_eq_getElem?_getD,
      List.getElem?_reverse (by omega), hlen, ← List.getD_eq_getElem?_getD]
    show q0.c.getD (lq + 1 - 1 - j) 0 = q0.at' (lq - j)
    have hidx : lq + 1 - 1 - j = lq - j := by omega
    rw [hidx]
    rfl
  · rw [if_neg (by omega),
      List.getD_eq_default _ _ (by rw [List.length_reverse]; omega)]

/-- Core correctness of Hensel division: if `q1` (supported below
`lq + 1`) is a true quotient in the sense that `q1 * p2` matches `p1` on
every coefficient at or above `l2`, then the buffer built by
`pr = p1; pr -= q1*p2; pr += (q1 << l2)` satisfies the combined layout
and stays zero above `deg p1`. -/
theorem hensel_core (p1 p2 q1 : polynom T) (h21 : p2.deg ≤ p1.deg)
    (hH1 : ∀ t, p2.deg ≤ t → conv q1.at' p2.at' t = p1.at' t)
    (hq1sup : ∀ j, p1.deg - p2.deg < j → q1.at' j = 0) :
    (∀ t, p1.at' t =
      conv (fun j => (add (sub p1 (mul q1 p2 (-1)))
          (polynom.mk (List.replicate p2.deg (0 : T) ++ q1.c))).at' (j + p2.deg))
        p2.at' t
        + (if t < p2.deg then (add (sub p1 (mul q1 p2 (-1)))
            (polynom.mk (List.replicate p2.deg (0 : T) ++ q1.c))).at' t else 0)) ∧
    (∀ u, p1.deg < u → (add (sub p1 (mul q1 p2 (-1)))
        (polynom.mk (List.replicate p2.deg (0 : T) ++ q1.c))).at' u = 0) := by
  have hR : ∀ t, (add (sub p1 (mul q1 p2 (-1)))
      (polynom.mk (List.replicate p2.deg (0 : T) ++ q1.c))).at' t
      = (p1.at' t - conv q1.at' p2.at' t)
        + (if t < p2.deg then 0 else q1.at' (t - p2.deg)) := by
    intro t
    rw [add_at', sub_at', mul_at'_full q1 p2 (-1) (by omega) t,
      mk_replicate_append_at']
  constructor
  · intro t
    have hconv : conv (fun j => (add (sub p1 (mul q1 p2 (-1)))
        (polynom.mk (List.replicate p2.deg (0 : T) ++ q1.c))).at' (j + p2.deg))
        p2.at' t = conv q1.at' p2.at' t := by
      refine conv_congr ?_ (fun j _ => rfl)
      intro j _
      beta_reduce
      rw [hR (j + p2.deg), if_neg (by omega), Nat.add_sub_cancel,
        hH1 (j + p2.deg) (by omega)]
      ring
    rw [hconv]
    by_cases ht : t < p2.deg
    · rw [if_pos ht, hR t, if_pos ht, add_zero]
      ring
    · rw [if_neg ht, add_zero, hH1 t (by omega)]
  · intro u hu
    rw [hR u, if_neg (by omega), hq1sup (u - p2.deg) (by omega),
      at'_of_deg_lt p1 hu,
      conv_eq_zero_of_support (fun j hj => hq1sup j hj)
        (fun j hj => at'_of_deg_lt p2 hj)
        (show p1.deg - p2.deg + p2.deg < u by omega)]
    ring

/-- The polynomial computed by the Newton-inversion line of
`quot_rem_hensel` is a true quotient: its product with `p2` matches `p1`
on every coefficient at or above `l2`.  The proof reflects indices via
`conv_rev`, cancels the reversed divisor against its inverse below
`lq + 1`, and reads off the reversed dividend. -/
theorem hensel_H1_abstract (p1 p2 q1 : polynom T) (h21 : p2.deg ≤ p1.deg)
    (hlead : p2.at' p2.deg ≠ 0)
    (hq1 : ∀ j, q1.at' j = if j ≤ p1.deg - p2.deg
      then conv (inverse (reverse p2) (p1.deg - p2.deg + 1)).at'
        (reverse p1).at' (p1.deg - p2.deg - j)
      else 0) :
    ∀ t, p2.deg ≤ t → conv q1.at' p2.at' t = p1.at' t := by
  intro t ht
  rcases le_or_lt t p1.deg with htl | htl
  · have hrev := conv_rev q1.at' p2.at' (p1.deg - p2.deg) p2.deg
      (fun a ha => by rw [hq1 a, if_neg (by omega)])
      (fun b hb => at'_of_deg_lt p2 hb) t (by omega)
    rw [hrev]
    calc conv
          (fun a => if a ≤ p1.deg - p2.deg
            then q1.at' (p1.deg - p2.deg - a) else 0)
          (fun b => if b ≤ p2.deg then p2.at' (p2.deg - b) else 0)
          (p1.deg - p2.deg + p2.deg - t)
        = conv (conv (inverse (reverse p2) (p1.deg - p2.deg + 1)).at'
              (reverse p1).at')
            (reverse p2).at' (p1.deg - p2.deg + p2.deg - t) := by
          refine conv_congr ?_ ?_
          · intro a ha
            beta_reduce
            rw [if_pos (by omega), hq1 (p1.deg - p2.deg - a), if_pos (by omega)]
            have h3 : p1.deg - p2.deg - (p1.deg - p2.deg - a) = a := by omega
            rw [h3]
          · intro b _
            beta_reduce
            exact (reverse_at' p2 b).symm
      _ = conv (conv (reverse p1).at'
              (inverse (reverse p2) (p1.deg - p2.deg + 1)).at')
            (reverse p2).at' (p1.deg - p2.deg + p2.deg - t) :=
          conv_congr (fun j _ => conv_comm _ _ j) (fun j _ => rfl)
      _ = conv (reverse p1).at'
            (conv (inverse (reverse p2) (p1.deg - p2.deg + 1)).at'
              (reverse p2).at')
            (p1.deg - p2.deg + p2.deg - t) :=
          conv_assoc _ _ _ _
      _ = conv (reverse p1).at' (fun s => if s = 0 then 1 else 0)
            (p1.deg - p2.deg + p2.deg - t) := by
          refine conv_congr (fun j _ => rfl) ?_
          intro s hs
          show conv (inverse (reverse p2) (p1.deg - p2.deg + 1)).at'
            (reverse p2).at' s = if s = 0 then 1 else 0
          rw [conv_comm]
          refine inverse_correct (reverse p2) (p1.deg - p2.deg + 1) ?_ s (by omega)
          rw [reverse_at', if_pos (by omega), Nat.sub_zero]
          exact hlead
      _ = (reverse p1).at' (p1.deg - p2.deg + p2.deg - t) :=
          conv_delta_right _ _
      _ = p1.at' t := by
          rw [reverse_at', if_pos (by omega)]
          congr 1
          omega
  · rw [conv_eq_zero_of_support
      (fun a ha => by rw [hq1 a, if_neg (by omega)])
      (fun b hb => at'_of_deg_lt p2 hb)
      (show p1.deg - p2.deg + p2.deg < t by omega),
      at'_of_deg_lt p1 htl]

/-- Combined-buffer layout after `quot_rem_hensel`, plus the fact that it
never writes above `deg p1`. -/
theorem quot_rem_hensel_layout (p1 p2 : polynom T) (h21 : p2.deg ≤ p1.deg)
    (hlead : p2.at' p2.deg ≠ 0) :
    (∀ t, p1.at' t =
      conv (fun j => (quot_rem_hensel p1 p2).at' (j + p2.deg)) p2.at' t
        + (if t < p2.deg then (quot_rem_hensel p1 p2).at' t else 0)) ∧
    (∀ u, p1.deg < u → (quot_rem_hensel p1 p2).at' u = 0) := by
  by_cases hPow : p2.isPow
  · constructor
    · intro t
      simp only [quot_rem_hensel]
      rw [if_pos (Or.inr hPow)]
      exact layout_of_isPow p1 p2 hPow t
    · intro u hu
      simp only [quot_rem_hensel]
      rw [if_pos (Or.inr hPow)]
      exact at'_of_deg_lt p1 hu
  · have hq0len : (mul (inverse (reverse p2) (p1.deg - p2.deg + 1)) (reverse p1)
        ((p1.deg : ℤ) - p2.deg)).c.length = (p1.deg - p2.deg) + 1 :=
      mul_size (inverse (reverse p2) (p1.deg - p2.deg + 1)) (reverse p1)
        ((p1.deg : ℤ) - (p2.deg : ℤ)) (p1.deg - p2.deg)
        (by rw [if_neg (by omega)]; omega)
    have hq1char : ∀ j, (polynom.mk
        (((mul (inverse (reverse p2) (p1.deg - p2.deg + 1)) (reverse p1)
          ((p1.deg : ℤ) - p2.deg)).c.take (p1.deg - p2.deg + 1)).reverse ++
          (mul (inverse (reverse p2) (p1.deg - p2.deg + 1)) (reverse p1)
          ((p1.deg : ℤ) - p2.deg)).c.drop (p1.deg - p2.deg + 1))).at' j
        = if j ≤ p1.deg - p2.deg
          then conv (inverse (reverse p2) (p1.deg - p2.deg + 1)).at'
            (reverse p1).at' (p1.deg - p2.deg - j)
          else 0 := by
      intro j
      rw [mk_revtake_at' _ (p1.deg - p2.deg) hq0len j]
      split_ifs with hj
      · rw [mul_at'_trunc _ _ _ (p1.deg - p2.deg) (by omega) _,
          if_pos (by omega)]
      · rfl
    have hH1 := hensel_H1_abstract p1 p2 _ h21 hlead hq1char
    have hcore := hensel_core p1 p2 _ h21 hH1
      (fun j hj => by rw [hq1char j, if_neg (by omega)])
    constructor
    · intro t
      simp only [quot_rem_hensel]
      rw [if_neg (not_or.mpr ⟨by omega, hPow⟩)]
      exact hcore.1 t
    · intro u hu
      simp only [quot_rem_hensel]
      rw [if_neg (not_or.mpr ⟨by omega, hPow⟩)]
      exact hcore.2 u hu

/-- Combined-buffer layout after the `quot_rem` dispatcher: both branches
of the heuristic produce it. -/
theorem quot_rem_layout (p1 p2 : polynom T) (h21 : p2.deg ≤ p1.deg)
    (hlead : p2.at' p2.deg ≠ 0) :
    (∀ t, p1.at' t =
      conv (fun j => (quot_rem p1 p2).at' (j + p2.deg)) p2.at' t
        + (if t < p2.deg then (quot_rem p1 p2).at' t else 0)) ∧
    (∀ u, p1.deg < u → (quot_rem p1 p2).at' u = 0) := by
  have hhen := quot_rem_hensel_layout p1 p2 h21 hlead
  constructor
  · intro t
    simp only [quot_rem]
    by_cases hd : p1.deg < 100 ∨ p2.deg < 50 ∨ p2.deg < 25 * Nat.log2 p1.deg ∨
        ¬ ((p1.id_coeff / p2.at' p2.deg) * p2.at' p2.deg = p1.id_coeff)
    · rw [if_pos hd]
      exact quot_rem_long_layout p1 p2 h21 hlead t
    · rw [if_neg hd]
      exact hhen.1 t
  · intro u hu
    simp only [quot_rem]
    by_cases hd : p1.deg < 100 ∨ p2.deg < 50 ∨ p2.deg < 25 * Nat.log2 p1.deg ∨
        ¬ ((p1.id_coeff / p2.at' p2.deg) * p2.at' p2.deg = p1.id_coeff)
    · rw [if_pos hd]
      exact quot_rem_long_high p1 p2 u hu
    · rw [if_neg hd]
      exact hhen.2 u hu

/-- When `deg p1 < deg p2` both division routines return `p1` unchanged. -/
theorem quot_rem_small (p1 p2 : polynom T) (h : p1.deg < p2.deg) :
    quot_rem p1 p2 = p1 := by
  simp only [quot_rem]
  split_ifs with hd
  · simp only [quot_rem_long]
    rw [if_pos (Or.inl (by omega))]
  · simp only [quot_rem_hensel]
    rw [if_pos (Or.inl (by omega))]

/-- `div` when `deg p1 < deg p2`: the output is cleared. -/
theorem div_small (p1 p2 : polynom T) (h : p1.deg < p2.deg) :
    div p1 p2 = ⟨[]⟩ := by
  simp only [div]
  rw [if_pos (by omega)]

/-- `mod` when `deg p1 < deg p2`: `p1` comes back unchanged. -/
theorem mod_small (p1 p2 : polynom T) (h : p1.deg < p2.deg) :
    mod p1 p2 = p1 := by
  simp only [mod]
  rw [if_neg (by omega), quot_rem_small p1 p2 h]

/-- `div` extracts the quotient slots of the `quot_rem` buffer by the
shift-down copy `pr[i] = pr[i + l2]` followed by `resize(lq + 1)`. -/
theorem div_at' (p1 p2 : polynom T) (h21 : p2.deg ≤ p1.deg) (i : ℕ) :
    (div p1 p2).at' i =
      if i ≤ p1.deg - p2.deg then (quot_rem p1 p2).at' (i + p2.deg) else 0 := by
  simp only [div]
  rw [if_neg (by omega), at'_mk_map]
  by_cases hi : i ≤ p1.deg - p2.deg
  · rw [if_pos (by omega), if_pos hi]
  · rw [if_neg (by omega), if_neg hi]

/-- `mod` extracts the remainder slots of the `quot_rem` buffer by
`resize(l2)`. -/
theorem mod_at' (p1 p2 : polynom T) (h21 : p2.deg ≤ p1.deg) (t : ℕ) :
    (mod p1 p2).at' t =
      if t < p2.deg then (quot_rem p1 p2).at' t else 0 := by
  simp only [mod]
  rw [if_pos (by omega), resize_at']

end DivisionTheorems

end polynom

/-! ## FFT guard: `size & (size - 1)` and powers of two -/

section FFTGuard

/-- A nonzero natural has a set bit. -/
theorem exists_testBit {n : ℕ} (h : n ≠ 0) : ∃ i, n.testBit i = true := by
  by_contra hc
  push_neg at hc
  apply h
  apply Nat.eq_of_testBit_eq
  intro i
  simp [Nat.zero_testBit]
  simpa using hc i

/-- The C guard idiom: if `n ≥ 1` and `n & (n - 1) = 0` then `n` is a
power of two.  By strong induction: an even `n = 2m` passes the property
down to `m` (bits shift right by one), and an odd `n ≥ 3` has bit 0 set
in `n` together with some bit `i + 1` shared by `n` and `n - 1`. -/
theorem and_pred_pow2 : ∀ n, 1 ≤ n → n &&& (n - 1) = 0 → ∃ k, n = 2 ^ k := by
  intro n
  induction n using Nat.strong_induction_on with
  | _ n ih =>
    intro h1 h
    rcases Nat.lt_or_ge n 2 with h2 | h2
    · exact ⟨0, by omega⟩
    · rcases Nat.even_or_odd n with he | ho
      · obtain ⟨m, hm⟩ := he
        have hm1 : 1 ≤ m := by omega
        have hn2 : n / 2 = m := by omega
        have hn12 : (n - 1) / 2 = m - 1 := by omega
        have hrec : m &&& (m - 1) = 0 := by
          apply Nat.eq_of_testBit_eq
          intro i
          have hbit : (n &&& (n - 1)).testBit (i + 1) = false := by
            rw [h]; exact Nat.zero_testBit _
          rw [Nat.testBit_land, Nat.testBit_succ, Nat.testBit_succ, hn2, hn12] at hbit
          rw [Nat.testBit_land, Nat.zero_testBit]
          exact hbit
        obtain ⟨k, hk⟩ := ih m (by omega) hm1 hrec
        exact ⟨k + 1, by rw [pow_succ]; omega⟩
      · obtain ⟨m, hm⟩ := ho
        have hm1 : 1 ≤ m := by omega
        have hn2 : n / 2 = m := by omega
        have hn12 : (n - 1) / 2 = m := by omega
        obtain ⟨i, hi⟩ := exists_testBit (show m ≠ 0 by omega)
        have hbit : (n &&& (n - 1)).testBit (i + 1) = false := by
          rw [h]; exact Nat.zero_testBit _
        rw [Nat.testBit_land, Nat.testBit_succ, Nat.testBit_succ, hn2, hn12] at hbit
        simp [hi] at hbit

end FFTGuard

/-! ## Correctness of `fft_rec`: it computes the DFT, and the
inverse-root pass of `fft_cyclic_convolution` inverts it -/

section FFTTheorems

variable {T : Type} [CommRing T]

/-- Unfolding of the `fft_rec` base case `if (size <= 1) { *dest = *src; return; }`. -/
theorem fftRec_of_le_one {size : ℕ} (h : size ≤ 1) (src : ℕ → T) (root : T) (off : ℕ) :
    fftRec src size root off = fun i => if i = 0 then src 0 else 0 := by
  rw [fftRec, if_pos h]

/-- Unfolding of the `fft_rec` recursive case: two half-size transforms
(even samples at stride `2*off`; odd samples from base `src + off`)
followed by the butterfly combine with twiddles `root^i`. -/
theorem fftRec_of_lt {size : ℕ} (h : 1 < size) (src : ℕ → T) (root : T) (off : ℕ) :
    fftRec src size root off = fun i =>
      if i < size / 2 then
        fftRec src (size / 2) (root * root) (off * 2) i
          + fftRec (fun t => src (off + t)) (size / 2) (root * root) (off * 2) i * root ^ i
      else if i < size then
        fftRec src (size / 2) (root * root) (off * 2) (i - size / 2)
          - fftRec (fun t => src (off + t)) (size / 2) (root * root) (off * 2) (i - size / 2)
            * root ^ (i - size / 2)
      else 0 := by
  rw [fftRec, if_neg (by omega)]

/-- Splitting a sum over `range (2*h)` into even and odd indices. -/
theorem sum_range_even_odd (f : ℕ → T) (h : ℕ) :
    ∑ j ∈ Finset.range (2 * h), f j =
      (∑ j ∈ Finset.range h, f (2 * j)) + ∑ j ∈ Finset.range h, f (2 * j + 1) := by
  induction h with
  | zero => simp
  | succ n ih =>
      rw [show 2 * (n + 1) = 2 * n + 1 + 1 by ring, Finset.sum_range_succ,
        Finset.sum_range_succ, ih, Finset.sum_range_succ, Finset.sum_range_succ]
      abel

/-- Lower-half decimation identity for the DFT: no root property needed. -/
theorem dft_split_lower (src : ℕ → T) (h : ℕ) (w : T) (off i : ℕ) :
    dft src (2 * h) w off i =
      dft src h (w * w) (off * 2) i
        + w ^ i * dft (fun t => src (off + t)) h (w * w) (off * 2) i := by
  simp only [dft]
  rw [sum_range_even_odd (fun j => src (off * j) * w ^ (i * j)) h, Finset.mul_sum]
  congr 1
  · apply Finset.sum_congr rfl
    intro j _
    rw [show off * (2 * j) = off * 2 * j by ring,
      show i * (2 * j) = i * j + i * j by ring, pow_add, mul_pow]
  · apply Finset.sum_congr rfl
    intro j _
    rw [show off * (2 * j + 1) = off + off * 2 * j by ring,
      show i * (2 * j + 1) = (i * j + i * j) + i by ring, pow_add, pow_add, mul_pow]
    ring

/-- Upper-half decimation identity: needs `w^(2h) = 1` and `w^h = -1`. -/
theorem dft_split_upper (src : ℕ → T) (h : ℕ) (w : T) (off i : ℕ)
    (hwn : w ^ (2 * h) = 1) (hwh : w ^ h = -1) :
    dft src (2 * h) w off (i + h) =
      dft src h (w * w) (off * 2) i
        - w ^ i * dft (fun t => src (off + t)) h (w * w) (off * 2) i := by
  simp only [dft]
  rw [sum_range_even_odd (fun j => src (off * j) * w ^ ((i + h) * j)) h, Finset.mul_sum,
    sub_eq_add_neg, ← Finset.sum_neg_distrib]
  congr 1
  · apply Finset.sum_congr rfl
    intro j _
    rw [show off * (2 * j) = off * 2 * j by ring,
      show (i + h) * (2 * j) = (i * j + i * j) + (2 * h) * j by ring,
      pow_add, pow_mul, hwn, one_pow, mul_one, pow_add, mul_pow]
  · apply Finset.sum_congr rfl
    intro j _
    rw [show off * (2 * j + 1) = off + off * 2 * j by ring,
      show (i + h) * (2 * j + 1) = ((i * j + i * j) + (2 * h) * j) + (i + h) by ring,
      pow_add, pow_add, pow_mul, hwn, one_pow, mul_one, pow_add w i h, hwh, mul_pow]
    ring

/-- `fft_rec` computes the DFT of the strided input: for `size = 2^m` and
a root with `root^(2^(m-1)) = -1` (the defining property of a root of
order exactly `2^m` that every recursion level preserves, since
`(w*w)^(2^(m-2)) = w^(2^(m-1))`), every output slot below `size` is the
DFT value. -/
theorem fftRec_eq_dft : ∀ (m : ℕ) (src : ℕ → T) (w : T) (off : ℕ),
    (m = 0 ∨ w ^ (2 ^ (m - 1)) = -1) →
    ∀ i < 2 ^ m, fftRec src (2 ^ m) w off i = dft src (2 ^ m) w off i := by
  intro m
  induction m with
  | zero =>
      intro src w off _ i hi
      have hi0 : i = 0 := by omega
      subst hi0
      rw [fftRec_of_le_one (by norm_num)]
      simp [dft]
  | succ m ih =>
      intro src w off hw i hi
      have hw1 : w ^ (2 ^ m) = -1 := by
        rcases hw with h0 | h1
        · exact absurd h0 (Nat.succ_ne_zero m)
        · simpa using h1
      have hwn : w ^ (2 * 2 ^ m) = 1 := by
        rw [show 2 * 2 ^ m = 2 ^ m + 2 ^ m by ring, pow_add, hw1]
        ring
      have hihyp : m = 0 ∨ (w * w) ^ (2 ^ (m - 1)) = -1 := by
        rcases Nat.eq_zero_or_pos m with h0 | h1
        · exact Or.inl h0
        · right
          have hsum : 2 ^ (m - 1) + 2 ^ (m - 1) = 2 ^ m := by
            have hm : m - 1 + 1 = m := by omega
            have h2 : (2 : ℕ) ^ (m - 1 + 1) = 2 ^ (m - 1) * 2 := pow_succ 2 (m - 1)
            rw [hm] at h2
            omega
          rw [mul_pow, ← pow_add, hsum, hw1]
      have hn : 2 ^ (m + 1) = 2 * 2 ^ m := by rw [pow_succ]; ring
      have hhalf : 2 ^ (m + 1) / 2 = 2 ^ m := by omega
      rw [fftRec_of_lt (show 1 < 2 ^ (m + 1) by
        have := Nat.one_le_two_pow (n := m); omega)]
      simp only [hhalf]
      rcases Nat.lt_or_ge i (2 ^ m) with hlo | hhi
      · rw [if_pos hlo, ih src (w * w) (off * 2) hihyp i hlo,
          ih (fun t => src (off + t)) (w * w) (off * 2) hihyp i hlo,
          hn, dft_split_lower]
        ring
      · rw [if_neg (by omega), if_pos hi]
        have hi2 : i - 2 ^ m < 2 ^ m := by omega
        rw [ih src (w * w) (off * 2) hihyp _ hi2,
          ih (fun t => src (off + t)) (w * w) (off * 2) hihyp _ hi2]
        rw [hn, show i = (i - 2 ^ m) + 2 ^ m by omega]
        rw [Nat.add_sub_cancel]
        rw [dft_split_upper src (2 ^ m) w off (i - 2 ^ m) hwn hw1]
        ring

/-- Exponents of an `n`-th root of unity only matter modulo `n`. -/
theorem pow_mod_eq (w : T) (n : ℕ) (hw : w ^ n = 1) (a : ℕ) : w ^ a = w ^ (a % n) := by
  conv_lhs => rw [← Nat.div_add_mod a n]
  rw [pow_add, pow_mul, hw, one_pow, one_mul]

/-- Orthogonality: the inner sum of the forward/inverse composition is
`n` on the diagonal `j = k` and `0` off it, the latter by the principal
sums `∑ i < n, w^(i*d) = 0`. -/
theorem dft_inner_sum (w : T) (n : ℕ) (hn : 1 ≤ n) (hw : w ^ n = 1)
    (hs : ∀ d < n, 0 < d → ∑ i ∈ Finset.range n, w ^ (i * d) = 0)
    (j k : ℕ) (hj : j < n) (hk : k < n) :
    ∑ i ∈ Finset.range n, w ^ (i * j) * (w ^ (n - 1)) ^ (k * i) =
      if j = k then (n : T) else 0 := by
  have key : ∀ i, w ^ (i * j) * (w ^ (n - 1)) ^ (k * i) =
      w ^ (i * ((j + (n - 1) * k) % n)) := by
    intro i
    rw [← pow_mul, ← pow_add]
    rw [pow_mod_eq w n hw (i * j + (n - 1) * (k * i)),
      pow_mod_eq w n hw (i * ((j + (n - 1) * k) % n))]
    congr 1
    have hme : (i * ((j + (n - 1) * k) % n)) % n = (i * (j + (n - 1) * k)) % n :=
      (Nat.ModEq.mul_left i (Nat.mod_modEq (j + (n - 1) * k) n))
    rw [hme]
    congr 1
    ring
  rw [Finset.sum_congr rfl (fun i _ => key i)]
  by_cases hjk : j = k
  · subst hjk
    have hd0 : (j + (n - 1) * j) % n = 0 := by
      have h' : n - 1 + 1 = n := by omega
      have : j + (n - 1) * j = n * j := by
        calc j + (n - 1) * j = (n - 1 + 1) * j := by ring
        _ = n * j := by rw [h']
      rw [this, Nat.mul_mod_right]
    rw [if_pos rfl]
    simp [hd0]
  · rw [if_neg hjk]
    set d := (j + (n - 1) * k) % n with hd
    apply hs d (Nat.mod_lt _ (by omega))
    rcases Nat.eq_zero_or_pos d with h0 | h1
    · exfalso
      have hdvd : n ∣ j + (n - 1) * k := Nat.dvd_of_mod_eq_zero (by rw [← hd]; exact h0)
      have heq : j + (n - 1) * k + k = j + n * k := by
        have h' : n - 1 + 1 = n := by omega
        calc j + (n - 1) * k + k = j + (n - 1 + 1) * k := by ring
        _ = j + n * k := by rw [h']
      have h1' : (j + (n - 1) * k + k) % n = k % n := by
        obtain ⟨c, hc⟩ := hdvd
        rw [hc, Nat.mul_add_mod]
      have h2' : (j + n * k) % n = j % n := by
        simp [Nat.add_mul_mod_self_left]
      rw [heq, h2', Nat.mod_eq_of_lt hj, Nat.mod_eq_of_lt hk] at h1'
      exact hjk h1'
    · exact h1

end FFTTheorems

/-! ## Claim theorems -/

section Claims

/-- C3: for all coefficient buffers `p1` (length `l1+1`), `p2` (length
`l2+1`) and every result length `lr` with `0 ≤ l2 ≤ l1 ≤ lr ≤ l1 + l2`,
`_mul_karatsuba` writes exactly the same coefficient sequence `pr[0..lr]`
as `_mul_long`. -/
theorem claim_C3_karatsuba_eq_long {T : Type} [CommRing T]
    (p1 : ℕ → T) (l1 : ℕ) (p2 : ℕ → T) (l2 : ℕ) (lr : ℕ)
    (h21 : l2 ≤ l1) (h1r : l1 ≤ lr) (hr : lr ≤ l1 + l2) :
    ∀ i ≤ lr, mulKaratsuba lr p1 l1 p2 l2 i = mulLong lr p1 l1 p2 l2 i := by
  intro i hi
  rw [mulKaratsuba_step lr p1 l1 p2 l2 (mulIH_all (l1 + l2)) h21 h1r hr i hi,
    mulLong_eq_conv]

theorem claim_C3_witness :
    mulKaratsuba 2 (fun _ => (1 : ℤ)) 1 (fun _ => (1 : ℤ)) 1 2 =
      mulLong 2 (fun _ => (1 : ℤ)) 1 (fun _ => (1 : ℤ)) 1 2 :=
  claim_C3_karatsuba_eq_long (fun _ => (1 : ℤ)) 1 (fun _ => (1 : ℤ)) 1 2
    (by decide) (by decide) (by decide) 2 (by decide)

/-- C5 counterexample: `resize` does remove stored coefficients when the
requested size is smaller than the current size (the claim says only
`shrink_to_fit` trims).  The polynomial `{3, 5}` loses its stored
coefficient `5` under `resize(1)`. -/
theorem claim_C5_counterexample :
    (⟨[3, 5]⟩ : polynom ℤ).at' 1 = 5 ∧
      (polynom.resize (⟨[3, 5]⟩ : polynom ℤ) 1).at' 1 = 0 := by
  constructor
  · rfl
  · rfl

/-- C5 (amended): `reserve` only pads with the contextual zero and never
removes stored coefficients; `resize` keeps exactly the first `sz`
coefficients, padding with the contextual zero when growing but removing
the stored coefficients at indices `≥ sz` when shrinking; `shrink_to_fit`
trims to exactly `deg() + 1` coefficients, removing only zeros. -/
theorem claim_C5_amended {T : Type} [CommRing T] [DecidableEq T]
    (p : polynom T) (sz : ℕ) :
    (∀ i, (p.reserve sz).at' i = p.at' i) ∧
      (p.reserve sz).size = max sz p.size ∧
      (∀ i, (p.resize sz).at' i = if i < sz then p.at' i else 0) ∧
      (p.resize sz).size = sz ∧
      (p.shrink_to_fit).size = p.deg + 1 ∧
      (∀ i, (p.shrink_to_fit).at' i = p.at' i) :=
  ⟨fun i => polynom.reserve_at' p sz i,
    polynom.reserve_size p sz,
    fun i => polynom.resize_at' p sz i,
    polynom.resize_size p sz,
    polynom.shrink_size p,
    fun i => polynom.shrink_at' p i⟩

/-- C8: for every polynomial whose constant term is the contextual zero
and every bound `L`, `inverse(L)` returns the zero polynomial
`{ZERO_COEFF}` (no exception is raised). -/
theorem claim_C8_inverse_zero {T : Type} [Field T] [DecidableEq T]
    (p : polynom T) (L : ℕ) (h : p.at' 0 = 0) :
    p.inverse L = ⟨[0]⟩ := by
  unfold polynom.inverse
  rw [if_pos h]

theorem claim_C8_witness :
    polynom.inverse (⟨[0, 1]⟩ : polynom ℚ) 3 = ⟨[0]⟩ :=
  claim_C8_inverse_zero (⟨[0, 1]⟩ : polynom ℚ) 3 rfl

/-- C9: when `deg p1 < deg p2`, division yields a quotient with no
coefficients (`div` clears the output) and `mod` returns `p1` unchanged
(`quot_rem` copies `p1` and returns early, and `mod` does not resize). -/
theorem claim_C9_small_dividend {T : Type} [Field T] [DecidableEq T]
    (p1 p2 : polynom T) (h : p1.deg < p2.deg) :
    (polynom.div p1 p2).c = [] ∧ polynom.mod p1 p2 = p1 := by
  have hqr : polynom.quot_rem p1 p2 = p1 := by
    simp only [polynom.quot_rem]
    split_ifs with hd
    · simp only [polynom.quot_rem_long]
      rw [if_pos (Or.inl (by omega))]
    · simp only [polynom.quot_rem_hensel]
      rw [if_pos (Or.inl (by omega))]
  constructor
  · simp only [polynom.div]
    rw [if_pos (by omega)]
  · simp only [polynom.mod]
    rw [if_neg (by omega), hqr]

theorem claim_C9_witness :
    (polynom.div (⟨[1]⟩ : polynom ℚ) ⟨[0, 1]⟩).c = [] ∧
      polynom.mod (⟨[1]⟩ : polynom ℚ) ⟨[0, 1]⟩ = ⟨[1]⟩ :=
  claim_C9_small_dividend (⟨[1]⟩ : polynom ℚ) ⟨[0, 1]⟩ (by decide)

/-- C6: polynomial multiplication is alias-safe.  `mul(pr, p1, p2, lr)`
executed imperatively with the output object `pr` being the same object
as `p1` (`mulSame1`), as `p2` (`mulSame2`), or as both (`mulSameBoth`,
where necessarily `p1 = p2` as well), produces exactly the same
coefficient sequence as the call with a distinct output polynomial
(embedded by `mul`): the schoolbook kernel writes output indices from
high to low while reading inputs only at indices `≤` the one being
written, and the Karatsuba kernel snapshots all scratch products before
its first destination write. -/
theorem claim_C6_alias_safe {T : Type} [CommRing T] [DecidableEq T]
    (p1 p2 : polynom T) (lrArg : ℤ) :
    polynom.mulSame1 p1 p2 lrArg = polynom.mul p1 p2 lrArg ∧
    polynom.mulSame2 p1 p2 lrArg = polynom.mul p1 p2 lrArg ∧
    polynom.mulSameBoth p1 lrArg = polynom.mul p1 p1 lrArg :=
  ⟨polynom.mulSame1_eq p1 p2 lrArg, polynom.mulSame2_eq p1 p2 lrArg,
    polynom.mulSameBoth_eq p1 lrArg⟩

/-- C7: for every buffer whose length is not a power of two, the in-place
transform `fft` performs no transform — the guard
`if ((size & (size - 1)) != 0) return;` fires for every such `size ≥ 1`
and the call returns the buffer completely unchanged.  For `size = 0`
(also not a power of two) the guard falls through, but every loop then
runs zero iterations and the buffer is again unchanged. -/
theorem claim_C7_fft_guard {T : Type} [CommRing T] (data : ℕ → T) (size : ℕ) (root : T)
    (h : ¬ ∃ k, size = 2 ^ k) : fft data size root = data := by
  rcases Nat.eq_zero_or_pos size with hz | hpos
  · subst hz
    show (if (0 : ℕ) &&& (0 - 1) ≠ 0 then data
      else fftReorder 0 (fftPasses 0 0 root data)) = data
    rw [if_neg (by decide)]
    rw [fftPasses, if_neg (by decide)]
    rfl
  · have hguard : size &&& (size - 1) ≠ 0 := by
      intro h0
      exact h (and_pred_pow2 size hpos h0)
    show (if size &&& (size - 1) ≠ 0 then data
      else fftReorder size (fftPasses size size root data)) = data
    rw [if_pos hguard]

theorem claim_C7_witness : fft (fun i : ℕ => (i : ℤ)) 3 5 = fun i : ℕ => (i : ℤ) :=
  claim_C7_fft_guard (fun i : ℕ => (i : ℤ)) 3 5 (by
    rintro ⟨k, hk⟩
    rcases k with _ | _ | k
    · norm_num at hk
    · norm_num at hk
    · have h4 : 4 ≤ 2 ^ (k + 2) := by
        calc (4 : ℕ) = 2 ^ 2 := by norm_num
        _ ≤ 2 ^ (k + 2) := Nat.pow_le_pow_right (by norm_num) (by omega)
      rw [← hk] at h4
      omega)

/-- C4 counterexample: the round trip fails for a principal root whose
order is strictly larger than the transform size.  In `ZMod 17`, `w = 2`
is a principal root of unity of order `8 ≥ n = 4` (as witnessed by the
first four conjuncts), yet transforming the length-4 buffer
`x = [0, 1, 0, 0]` forward with root `2` and then applying the inverse
transform (root `2^(4-1)`, every element divided by `4`) does not restore
`x` at index 1 — the round trip actually produces `[0, 0, 0, 1]`. -/
theorem claim_C4_counterexample :
    (2 : ZMod 17) ^ 8 = 1 ∧ (2 : ZMod 17) ^ 4 ≠ 1 ∧
    (∀ d < 8, 0 < d → ∑ i ∈ Finset.range 8, (2 : ZMod 17) ^ (i * d) = 0) ∧
    (2 ^ 2 ≤ 8) ∧
    fftInverse (fftRec (fun i : ℕ => if i = 1 then (1 : ZMod 17) else 0) (2 ^ 2) 2 1)
        (2 ^ 2) 2 1 ≠
      (if 1 = 1 then (1 : ZMod 17) else 0) := by
  refine ⟨by decide, by decide, by decide, by norm_num, ?_⟩
  have h13 : (13 : ZMod 17) = 1 / 4 := eq_one_div_of_mul_eq_one_left (by decide)
  rw [one_div] at h13
  simp only [fftInverse]
  norm_num
  rw [← h13]
  simp only [fftRec_of_lt (show (1 : ℕ) < 4 by norm_num),
    fftRec_of_lt (show (1 : ℕ) < 2 by norm_num),
    fftRec_of_le_one (le_refl 1)]
  norm_num
  decide

/-- C4 (amended): for every buffer `x` of exact power-of-two length
`n = 2^m` over a field and every principal root of unity of order
exactly `n` (characterized by `w^(n/2) = -1` together with the principal
sums `∑ i < n, w^(i*d) = 0` for `0 < d < n`), with `n` invertible in the
field, the FFT round trip restores the input: the forward `fft_rec`
transform with root `w` followed by the inverse transform of
`fft_cyclic_convolution` (the same transform with the reciprocal root
`w^(n-1)`, then every element multiplied by `1/n`) yields the original
buffer on every slot. -/
theorem claim_C4_amended {T : Type} [Field T] (m : ℕ) (w : T) (x : ℕ → T)
    (hm : 1 ≤ m) (hw : w ^ (2 ^ (m - 1)) = -1)
    (hs : ∀ d < 2 ^ m, 0 < d → ∑ i ∈ Finset.range (2 ^ m), w ^ (i * d) = 0)
    (hchar : ((2 ^ m : ℕ) : T) ≠ 0) :
    ∀ k < 2 ^ m, fftInverse (fftRec x (2 ^ m) w 1) (2 ^ m) w k = x k := by
  intro k hk
  set n := 2 ^ m with hn
  have hn1 : 1 ≤ n := Nat.one_le_two_pow
  have hhalf : 2 ^ (m - 1) + 2 ^ (m - 1) = 2 ^ m := by
    have h' : m - 1 + 1 = m := by omega
    have h2 : (2 : ℕ) ^ (m - 1 + 1) = 2 ^ (m - 1) * 2 := pow_succ 2 (m - 1)
    rw [h'] at h2
    omega
  have hwn : w ^ n = 1 := by
    rw [hn, ← hhalf, pow_add, hw]
    ring
  have hw2 : (w ^ (n - 1)) ^ (2 ^ (m - 1)) = -1 := by
    have hmul : (w ^ (n - 1)) ^ (2 ^ (m - 1)) * w ^ (2 ^ (m - 1)) = 1 := by
      rw [← pow_mul, ← pow_add]
      have hexp : (n - 1) * 2 ^ (m - 1) + 2 ^ (m - 1) = n * 2 ^ (m - 1) := by
        have h' : n - 1 + 1 = n := by omega
        calc (n - 1) * 2 ^ (m - 1) + 2 ^ (m - 1) = (n - 1 + 1) * 2 ^ (m - 1) := by ring
        _ = n * 2 ^ (m - 1) := by rw [h']
      rw [hexp, pow_mul, hwn, one_pow]
    rw [hw] at hmul
    linear_combination -hmul
  have hy := fftRec_eq_dft m x w 1 (Or.inr hw)
  simp only [fftInverse]
  rw [fftRec_eq_dft m (fftRec x (2 ^ m) w 1) (w ^ (2 ^ m - 1)) 1 (Or.inr hw2) k hk]
  have hstep : dft (fftRec x (2 ^ m) w 1) (2 ^ m) (w ^ (2 ^ m - 1)) 1 k
      = x k * (n : T) := by
    simp only [dft, one_mul]
    have hsum1 : ∀ i ∈ Finset.range n,
        fftRec x (2 ^ m) w 1 i * (w ^ (2 ^ m - 1)) ^ (k * i)
          = ∑ j ∈ Finset.range n, x j * (w ^ (i * j) * (w ^ (n - 1)) ^ (k * i)) := by
      intro i hi
      rw [hy i (Finset.mem_range.mp hi)]
      simp only [dft, one_mul]
      rw [Finset.sum_mul]
      apply Finset.sum_congr rfl
      intro j _
      ring
    rw [Finset.sum_congr rfl hsum1, Finset.sum_comm]
    have hsum2 : ∀ j ∈ Finset.range n,
        ∑ i ∈ Finset.range n, x j * (w ^ (i * j) * (w ^ (n - 1)) ^ (k * i))
          = x j * (if j = k then (n : T) else 0) := by
      intro j hj
      rw [← Finset.mul_sum,
        dft_inner_sum w n hn1 hwn hs j k (Finset.mem_range.mp hj) hk]
    rw [Finset.sum_congr rfl hsum2]
    rw [Finset.sum_eq_single k]
    · rw [if_pos rfl]
    · intro j _ hjk
      rw [if_neg hjk, mul_zero]
    · intro hkn
      exact absurd (Finset.mem_range.mpr hk) hkn
  rw [hstep]
  have hne : (n : T) ≠ 0 := hchar
  field_simp

/-- C2: for every polynomial `p` whose constant term is invertible
(nonzero in the field) and every bound `L ≥ 1`, the product
`p.inverse(L) * p`, truncated to degree `< L` (computed by the library's
own `mul` with requested degree `L - 1`), equals the constant polynomial
1 on every slot below `L`. -/
theorem claim_C2_inverse {T : Type} [Field T] [DecidableEq T]
    (p : polynom T) (L : ℕ) (h0 : p.at' 0 ≠ 0) (hL : 1 ≤ L) :
    ∀ t < L, (polynom.mul (p.inverse L) p ((L : ℤ) - 1)).at' t
      = (⟨[1]⟩ : polynom T).at' t := by
  intro t ht
  rw [polynom.mul_at'_trunc _ _ _ (L - 1) (by omega) t, if_pos (by omega),
    polynom.one_at', conv_comm]
  exact polynom.inverse_correct p L h0 t ht

/-- C1 counterexample: the degree contract `deg(r) < deg(b)` is
unsatisfiable when `deg(b) = 0`, because `deg` never goes below 0 —
dividing `a = {1}` by the (invertible-leading-coefficient) constant
`b = {2}` over `ℚ` leaves a remainder of degree 0, not `< 0`. -/
theorem claim_C1_counterexample :
    (⟨[2]⟩ : polynom ℚ).at' (⟨[2]⟩ : polynom ℚ).deg ≠ 0 ∧
    ¬ ((polynom.mod (⟨[1]⟩ : polynom ℚ) ⟨[2]⟩).deg
        < (⟨[2]⟩ : polynom ℚ).deg) := by
  constructor
  · decide
  · have hd : (⟨[2]⟩ : polynom ℚ).deg = 0 := by decide
    rw [hd]
    omega

/-- C1 (amended): for all polynomials `a = p1` and `b = p2` with `b`'s
leading coefficient invertible (nonzero in the field), the quotient and
remainder produced by the division engine (`quot_rem` as consumed by
`div` and `mod`) satisfy `a == q*b + r` — stated with the library's own
`add` and `mul` — on every coefficient; and the degree contract
`deg(r) < deg(b)` holds whenever `deg(b) ≥ 1` (for `deg(b) = 0` it is
unsatisfiable since `deg` is never negative). -/
theorem claim_C1_amended {T : Type} [Field T] [DecidableEq T]
    (p1 p2 : polynom T) (hlead : p2.at' p2.deg ≠ 0) :
    (∀ t, (polynom.add (polynom.mul (polynom.div p1 p2) p2 (-1))
        (polynom.mod p1 p2)).at' t = p1.at' t) ∧
    (1 ≤ p2.deg → (polynom.mod p1 p2).deg < p2.deg) := by
  constructor
  · intro t
    rw [polynom.add_at', polynom.mul_at'_full _ _ _ (by omega) t]
    rcases lt_or_ge p1.deg p2.deg with h | h
    · rw [polynom.div_small p1 p2 h, polynom.mod_small p1 p2 h,
        polynom.conv_zero_left _ _
          (fun m => polynom.at'_of_size_zero (⟨[]⟩ : polynom T) rfl m) t,
        zero_add]
    · have hlay := (polynom.quot_rem_layout p1 p2 h hlead).1 t
      have hhigh := (polynom.quot_rem_layout p1 p2 h hlead).2
      have hc : conv (polynom.div p1 p2).at' p2.at' t
          = conv (fun j => (polynom.quot_rem p1 p2).at' (j + p2.deg))
              p2.at' t := by
        refine conv_congr ?_ (fun j _ => rfl)
        intro j _
        rw [polynom.div_at' p1 p2 h j]
        split_ifs with hj
        · rfl
        · exact (hhigh (j + p2.deg) (by omega)).symm
      rw [hc, polynom.mod_at' p1 p2 h t]
      exact hlay.symm
  · intro h2
    rcases lt_or_ge p1.deg p2.deg with h | h
    · rw [polynom.mod_small p1 p2 h]
      omega
    · have hsz : (polynom.mod p1 p2).size = p2.deg := by
        simp only [polynom.mod]
        rw [if_pos (by omega)]
        exact polynom.resize_size _ _
      have hd := polynom.deg_le_size (polynom.mod p1 p2)
      omega

theorem claim_C1_witness :
    ((polynom.add (polynom.mul (polynom.div (⟨[0, 0, 1]⟩ : polynom ℚ) ⟨[1, 1]⟩)
        ⟨[1, 1]⟩ (-1)) (polynom.mod (⟨[0, 0, 1]⟩ : polynom ℚ) ⟨[1, 1]⟩)).at' 2
      = (⟨[0, 0, 1]⟩ : polynom ℚ).at' 2) ∧
    (polynom.mod (⟨[0, 0, 1]⟩ : polynom ℚ) ⟨[1, 1]⟩).deg
      < (⟨[1, 1]⟩ : polynom ℚ).deg :=
  ⟨(claim_C1_amended (⟨[0, 0, 1]⟩ : polynom ℚ) ⟨[1, 1]⟩ (by decide)).1 2,
    (claim_C1_amended (⟨[0, 0, 1]⟩ : polynom ℚ) ⟨[1, 1]⟩ (by decide)).2 (by decide)⟩

/-- C10: implicit combined-buffer layout of `quot_rem` — for
`l2 = deg p2 ≤ l1 = deg p1` and invertible leading coefficient, slot
`i + l2` of the single output buffer is coefficient `i` of the quotient
(extracted by `div` shifting down `l2` places) and slots `0..l2-1` are
the remainder (extracted by `mod` resizing to `l2` terms); the third
conjunct is the defining property that the high slots convolved with
`p2` plus the low slots reconstruct `p1`. -/
theorem claim_C10_layout {T : Type} [Field T] [DecidableEq T]
    (p1 p2 : polynom T) (h21 : p2.deg ≤ p1.deg)
    (hlead : p2.at' p2.deg ≠ 0) :
    (∀ i ≤ p1.deg - p2.deg,
      (polynom.div p1 p2).at' i = (polynom.quot_rem p1 p2).at' (i + p2.deg)) ∧
    (∀ i < p2.deg,
      (polynom.mod p1 p2).at' i = (polynom.quot_rem p1 p2).at' i) ∧
    (∀ t, p1.at' t =
      conv (fun j => (polynom.quot_rem p1 p2).at' (j + p2.deg)) p2.at' t
        + (if t < p2.deg then (polynom.quot_rem p1 p2).at' t else 0)) := by
  refine ⟨?_, ?_, (polynom.quot_rem_layout p1 p2 h21 hlead).1⟩
  · intro i hi
    rw [polynom.div_at' p1 p2 h21 i, if_pos hi]
  · intro i hi
    rw [polynom.mod_at' p1 p2 h21 i, if_pos hi]

theorem claim_C10_witness :
    ((polynom.div (⟨[0, 0, 1]⟩ : polynom ℚ) ⟨[1, 1]⟩).at' 0
      = (polynom.quot_rem (⟨[0, 0, 1]⟩ : polynom ℚ) ⟨[1, 1]⟩).at'
          (0 + (⟨[1, 1]⟩ : polynom ℚ).deg)) ∧
    ((polynom.mod (⟨[0, 0, 1]⟩ : polynom ℚ) ⟨[1, 1]⟩).at' 0
      = (polynom.quot_rem (⟨[0, 0, 1]⟩ : polynom ℚ) ⟨[1, 1]⟩).at' 0) :=
  ⟨(claim_C10_layout (⟨[0, 0, 1]⟩ : polynom ℚ) ⟨[1, 1]⟩ (by decide)
      (by decide)).1 0 (Nat.zero_le _),
    (claim_C10_layout (⟨[0, 0, 1]⟩ : polynom ℚ) ⟨[1, 1]⟩ (by decide)
      (by decide)).2.1 0 (by decide)⟩

theorem claim_C2_witness :
    (polynom.mul (polynom.inverse (⟨[1, 1]⟩ : polynom ℚ) 2) ⟨[1, 1]⟩
        ((2 : ℤ) - 1)).at' 1
      = (⟨[1]⟩ : polynom ℚ).at' 1 :=
  claim_C2_inverse (⟨[1, 1]⟩ : polynom ℚ) 2 (by decide) (by norm_num) 1
    (by norm_num)

theorem claim_C4_amended_witness :
    fftInverse (fftRec (fun i : ℕ => (i : ZMod 17)) (2 ^ 2) 4 1) (2 ^ 2) 4 1
      = ((1 : ℕ) : ZMod 17) :=
  claim_C4_amended 2 4 (fun i : ℕ => (i : ZMod 17)) (by norm_num) (by decide)
    (by decide) (by decide) 1 (by norm_num)

end Claims

end Altruct

